import Mathlib

/-!
Verification of the note_csystem parsing and serialization core.

The repository's pure logic (issue-body section extraction, tone/length
inference, URL collection, feedback-command detection, the markdown
front-matter codec used by `saveArticleAsMarkdown` / `loadArticle`, and the
title/body splitter `parseArticleContent`) is embedded here over `List Char`
as the model of JavaScript strings.  JavaScript regular-expression uses in
the source are modelled by explicit scanning functions with the same
leftmost-match, greedy/lazy and line-boundary semantics.
-/

/-- JavaScript whitespace class `\\s` (WhiteSpace plus LineTerminator):
space, tab, LF, VT, FF, CR, NBSP, Ogham space, the U+2000 block, line and
paragraph separators, narrow and medium spaces, ideographic space, BOM. -/
def jsWs (c : Char) : Bool :=
  c = ' ' || c = '\t' || c = '\n' || c.toNat = 11 || c.toNat = 12 || c = '\r' ||
  c.toNat = 160 || c.toNat = 5760 || (8192 <= c.toNat && c.toNat <= 8202) ||
  c.toNat = 8232 || c.toNat = 8233 || c.toNat = 8239 || c.toNat = 8287 ||
  c.toNat = 12288 || c.toNat = 65279

/-- JavaScript line terminators: the characters `.` does not match
(LF, CR, LS, PS). -/
def isLineTerm (c : Char) : Bool :=
  c = '\n' || c = '\r' || c.toNat = 8232 || c.toNat = 8233


/-- JavaScript digit class `\d`. -/
def jsDigit (c : Char) : Bool := '0' ≤ c && c ≤ '9'

/-- `text.replace(/\s/g, '').length` from `countCharacters` in
article-generator.ts: the number of non-whitespace characters. -/
def countCharacters (text : List Char) : Nat :=
  (text.filter (fun c => !jsWs c)).length

/-- JavaScript `String.prototype.trim`. -/
def jsTrim (s : List Char) : List Char :=
  ((s.dropWhile jsWs).reverse.dropWhile jsWs).reverse

/-- JavaScript `String.prototype.split` on a single-character separator. -/
def splitOnCh (sep : Char) : List Char → List (List Char)
  | [] => [[]]
  | c :: t =>
    match splitOnCh sep t with
    | [] => [[c]]
    | h :: r => if c = sep then [] :: h :: r else (c :: h) :: r

/-- Rejoin lines with `'\n'`, JavaScript `Array.prototype.join('\n')`. -/
def joinNl (ls : List (List Char)) : List Char :=
  List.intercalate ['\n'] ls

/-- Boolean prefix test on character lists. -/
def pfx : List Char → List Char → Bool
  | [], _ => true
  | _ :: _, [] => false
  | a :: as, b :: bs => a = b && pfx as bs

/-- Boolean suffix test on character lists. -/
def endsW (p s : List Char) : Bool := pfx p.reverse s.reverse

/-- Index of the first occurrence of `p` in `s`, if any. -/
def findSub (p : List Char) : List Char → Option Nat
  | [] => if pfx p [] then some 0 else none
  | s@(_ :: t) => if pfx p s then some 0 else (findSub p t).map (· + 1)

/-- JavaScript `String.prototype.includes`. -/
def jsIncludes (s p : List Char) : Bool := (findSub p s).isSome

/-- JavaScript `a || b` on strings: the empty string is falsy. -/
def jsOr (a b : List Char) : List Char := if a = [] then b else a

/-- Numeric value of a digit list, as computed by `parseInt(-, 10)` on an
all-digit string. -/
def digitsVal (ds : List Char) : Nat :=
  ds.foldl (fun a c => a * 10 + (c.toNat - 48)) 0

/-- The character of a decimal digit. -/
def digitCh (n : Nat) : Char :=
  if n = 0 then '0' else if n = 1 then '1' else if n = 2 then '2'
  else if n = 3 then '3' else if n = 4 then '4' else if n = 5 then '5'
  else if n = 6 then '6' else if n = 7 then '7' else if n = 8 then '8'
  else '9'

/-- Decimal digits of `n`, fuelled (structural) form. -/
def natDigitsF : Nat → Nat → List Char
  | 0, _ => []
  | fuel + 1, n =>
    if n < 10 then [digitCh n]
    else natDigitsF fuel (n / 10) ++ [digitCh (n % 10)]

/-- Decimal representation of `n`, the model of template interpolation
of a number in saveArticleAsMarkdown. -/
def natDigits (n : Nat) : List Char := natDigitsF (n + 1) n

/-- `summary.replace(/"/g, '\\"')` in saveArticleAsMarkdown. -/
def escQ (s : List Char) : List Char :=
  (s.map (fun c => if c = '"' then ['\\', '"'] else [c])).flatten

/-- `[${tags.map(t => `"${t}"`).join(', ')}]` interior of the tags line. -/
def tagsJoin : List (List Char) → List Char
  | [] => []
  | [t] => '"' :: (t ++ ['"'])
  | t :: rest => '"' :: (t ++ ('"' :: ((", ".data) ++ tagsJoin rest)))

/-- The run of characters a `.` can match from the front of `s`:
everything up to the first line terminator. -/
def lineOf (s : List Char) : List Char :=
  s.takeWhile (fun c => !isLineTerm c)

/-- Does the list contain a double quote? -/
def hasQuote (l : List Char) : Bool := l.any (fun c => c = '"')

/-- Everything before the last occurrence of `ch` in `line`. -/
def beforeLast (ch : Char) (line : List Char) : List Char :=
  ((line.reverse.dropWhile (fun c => c ≠ ch)).drop 1).reverse

/-- Model of `str.match(/KEY(.*)"/)?.[1]` where KEY ends in a double quote:
scan for the leftmost position where the full pattern matches (the key
followed, on the same line, by a closing quote), and return the greedy
capture (text up to the last quote on that line). -/
def extractQuoted (key : List Char) : List Char → Option (List Char)
  | [] => none
  | s@(_ :: t) =>
    if pfx key s then
      let line := lineOf (s.drop key.length)
      if hasQuote line then some (beforeLast '"' line)
      else extractQuoted key t
    else extractQuoted key t

/-- Model of `str.match(/KEY(\d+)/)?.[1]`: leftmost position where the key
is followed by at least one digit; capture is the maximal digit run. -/
def extractDigitsRun (key : List Char) : List Char → Option (List Char)
  | [] => none
  | s@(_ :: t) =>
    if pfx key s then
      let ds := (s.drop key.length).takeWhile jsDigit
      if ds = [] then extractDigitsRun key t else some ds
    else extractDigitsRun key t

/-- Model of `str.match(/KEY\[(.*)\]/)?.[1]` for the tags line of the
note-export loader: key followed, on the same line, by a closing bracket;
greedy capture up to the last bracket on that line. -/
def extractBracketed (key : List Char) : List Char → Option (List Char)
  | [] => none
  | s@(_ :: t) =>
    if pfx key s then
      let line := lineOf (s.drop key.length)
      if line.any (fun c => c = ']') then some (beforeLast ']' line)
      else extractBracketed key t
    else extractBracketed key t

/-- `content.match(/^---\n([\s\S]*?)\n---\n([\s\S]*)$/)`: the document must
start with `---\n`; the lazy group ends at the first later `\n---\n`; the
rest is the body. -/
def splitFm (doc : List Char) : Option (List Char × List Char) :=
  if pfx ("---\n".data) doc then
    let rest := doc.drop 4
    match findSub ("\n---\n".data) rest with
    | some j => some (rest.take j, rest.drop (j + 5))
    | none => none
  else none

/-- `body.replace(/^# .*\n\n/, '')` in the regeneration loader: strip a
leading `# ` line only when the body starts with it and a blank line
follows. -/
def stripLeadTitle (b : List Char) : List Char :=
  if pfx ("# ".data) b then
    let rest := b.drop 2
    let i := (rest.takeWhile (fun c => !isLineTerm c)).length
    if pfx ("\n\n".data) (rest.drop i) then rest.drop (i + 2) else b
  else b

/-- The literal part of the footer pattern `/\n---\n\n\*この記事は.*$/`. -/
def footMark : List Char := "\n---\n\n*この記事は".data

/-- Does the footer pattern match at the head of `s`?  The `.*$` tail
requires the remainder to be line-terminator free up to the very end. -/
def footHere (s : List Char) : Bool :=
  pfx footMark s && (s.drop footMark.length).all (fun c => !isLineTerm c)

/-- Leftmost match position of the footer pattern. -/
def findFoot : List Char → Option Nat
  | [] => none
  | s@(_ :: t) => if footHere s then some 0 else (findFoot t).map (· + 1)

/-- `body.replace(/\n---\n\n\*この記事は.*$/, '')`. -/
def stripFoot (b : List Char) : List Char :=
  match findFoot b with
  | some i => b.take i
  | none => b

/-- ArticleMetadata from types/article.ts. -/
structure ArticleMeta where
  issueNumber : Nat
  tone : List Char
  targetAudience : List Char
  suggestedTags : List (List Char)
deriving DecidableEq, Repr

/-- GeneratedArticle from types/article.ts.  `generatedAt` is modelled as
the ISO string the serializer writes. -/
structure Article where
  title : List Char
  content : List Char
  summary : List Char
  wordCount : Nat
  generatedAt : List Char
  metadata : ArticleMeta
deriving DecidableEq, Repr

/-- The document text built by `saveArticleAsMarkdown` (note-api.ts). -/
def serializeArticle (a : Article) : List Char :=
  ("---\ntitle: \"".data) ++ a.title ++
  ("\"\nsummary: \"".data) ++ escQ a.summary ++
  ("\"\ntags: [".data) ++ tagsJoin a.metadata.suggestedTags ++
  ("]\nissueNumber: ".data) ++ natDigits a.metadata.issueNumber ++
  ("\ngeneratedAt: \"".data) ++ a.generatedAt ++
  ("\"\nwordCount: ".data) ++ natDigits a.wordCount ++
  ("\ntone: \"".data) ++ a.metadata.tone ++
  ("\"\ntargetAudience: \"".data) ++ a.metadata.targetAudience ++
  ("\"\n---\n\n# ".data) ++ a.title ++
  ("\n\n".data) ++ a.content ++
  ("\n\n---\n\n*この記事はAIによって生成されました。*\n".data)

/-- `loadArticle` of workflows/regenerate-article.ts.  Returns `none` where
the source throws `Invalid article format`.  `now` models `new Date()`. -/
def loadArticleRegen (doc now : List Char) : Option Article :=
  match splitFm doc with
  | none => none
  | some (fm, body) =>
    let title := (extractQuoted ("title: \"".data) fm).getD []
    let summary := (extractQuoted ("summary: \"".data) fm).getD []
    let issueNumber := digitsVal ((extractDigitsRun ("issueNumber: ".data) fm).getD ['0'])
    let tone := jsOr ((extractQuoted ("tone: \"".data) fm).getD []) ("casual".data)
    let ta := (extractQuoted ("targetAudience: \"".data) fm).getD []
    let contentBody := stripFoot (stripLeadTitle body)
    some { title := title, content := jsTrim contentBody, summary := summary,
           wordCount := countCharacters contentBody, generatedAt := now,
           metadata := { issueNumber := issueNumber, tone := tone,
                         targetAudience := ta, suggestedTags := [] } }

/-- `lines[0].replace(/^#\s*/, '')`: one leading hash (if present) and the
following whitespace run stripped. -/
def stripHash1Star (l : List Char) : List Char :=
  if pfx ['#'] l then (l.drop 1).dropWhile jsWs else l

/-- `loadArticle` of the note-export workflow (publish script): on a
missing front matter it degrades instead of failing. -/
def loadArticleNote (doc now : List Char) : Article :=
  match splitFm doc with
  | none =>
    { title := stripHash1Star ((splitOnCh '\n' doc).headD []),
      content := doc, summary := [], wordCount := countCharacters doc,
      generatedAt := now,
      metadata := { issueNumber := 0, tone := ("casual".data),
                    targetAudience := [], suggestedTags := [] } }
  | some (fm, body) =>
    let title := (extractQuoted ("title: \"".data) fm).getD []
    let summary := (extractQuoted ("summary: \"".data) fm).getD []
    let issueNumber := digitsVal ((extractDigitsRun ("issueNumber: ".data) fm).getD ['0'])
    let tone := jsOr ((extractQuoted ("tone: \"".data) fm).getD []) ("casual".data)
    let ta := (extractQuoted ("targetAudience: \"".data) fm).getD []
    let suggestedTags :=
      match extractBracketed ("tags: [".data) fm with
      | some inner => (splitOnCh ',' inner).map (fun t => (jsTrim t).filter (fun c => c ≠ '"'))
      | none => []
    let contentBody := jsTrim body
    { title := title, content := contentBody, summary := summary,
      wordCount := countCharacters contentBody, generatedAt := now,
      metadata := { issueNumber := issueNumber, tone := tone,
                    targetAudience := ta, suggestedTags := suggestedTags } }

/-- A heading line match `line.match(/^##\s+(.+)$/)`, with the capture the
regex engine produces (greedy whitespace run, `.+` reaching the very end,
line terminators unmatched by `.`). -/
def sectionHead (line : List Char) : Option (List Char) :=
  if pfx ("##".data) line then
    let a := line.drop 2
    let m := (a.takeWhile jsWs).length
    if m = 0 then none
    else
      let r := a.drop m
      if r = [] then
        if 2 ≤ m && !isLineTerm (a.getD (m - 1) ' ') then some [a.getD (m - 1) ' ']
        else none
      else if r.all (fun c => !isLineTerm c) then some r
      else none
  else none

/-- Store a section, JavaScript object assignment: a later write to the
same key wins on lookup. -/
def secPut (m : List (List Char × List Char)) (k v : List Char) :
    List (List Char × List Char) :=
  m ++ [(k, v)]

/-- Lookup of `sections[k]`: `none` models `undefined`. -/
def secGet (m : List (List Char × List Char)) (k : List Char) : Option (List Char) :=
  (m.reverse.find? (fun p => p.1 = k)).map (fun p => p.2)

/-- The line loop of `parseIssueSections` (github.ts): state is the current
section name (empty = falsy, none open) and the accumulated lines. -/
def parseIssueSectionsAux :
    List (List Char) → List Char → List (List Char) →
    List (List Char × List Char) → List (List Char × List Char)
  | [], cur, content, secs =>
    if cur = [] then secs else secPut secs cur (jsTrim (joinNl content))
  | line :: rest, cur, content, secs =>
    match sectionHead line with
    | some name =>
      let secs2 := if cur = [] then secs else secPut secs cur (jsTrim (joinNl content))
      parseIssueSectionsAux rest (jsTrim name) [] secs2
    | none =>
      if cur = [] then parseIssueSectionsAux rest cur content secs
      else parseIssueSectionsAux rest cur (content ++ [line]) secs

/-- `parseIssueSections` of github.ts. -/
def parseIssueSections (body : List Char) : List (List Char × List Char) :=
  parseIssueSectionsAux (splitOnCh '\n' body) [] [] []

/-- `sections[k]` coerced by `||` chains: absent and empty both give `[]`. -/
def secVal (m : List (List Char × List Char)) (k : List Char) : List Char :=
  (secGet m k).getD []

/-- The tone decision of `parseIssueToArticleRequest` (github.ts lines
24-30): substring containment, business before technical, else casual. -/
def toneFrom (toneText : List Char) : List Char :=
  if jsIncludes toneText ("ビジネス".data) || jsIncludes toneText ("business".data) then
    ("business".data)
  else if jsIncludes toneText ("技術".data) || jsIncludes toneText ("technical".data) then
    ("technical".data)
  else ("casual".data)

/-- `lengthText.match(/(\d+)/)`: the first maximal digit run. -/
def firstDigitsRun : List Char → Option (List Char)
  | [] => none
  | s@(c :: t) => if jsDigit c then some (s.takeWhile jsDigit) else firstDigitsRun t

/-- `issue.title.replace(/^記事作成[:：]\s*/, '')`. -/
def stripKijiLabel (title : List Char) : List Char :=
  if pfx ("記事作成".data) title then
    match title.drop ("記事作成".data).length with
    | c :: rest => if c = ':' || c = '：' then rest.dropWhile jsWs else title
    | [] => title
  else title

/-- `[^\s)>\]]`, the character class of the URL pattern in
`extractReferences`. -/
def urlChar (c : Char) : Bool := !jsWs c && c ≠ ')' && c ≠ '>' && c ≠ ']'

/-- One attempt of `https?:\/\/[^\s)>\]]+` anchored at the head of `s`,
with the `s?` backtracking of the regex engine. -/
def urlTokenAt (s : List Char) : Option (List Char) :=
  if pfx ("https://".data) s then
    let run := (s.drop 8).takeWhile urlChar
    if run = [] then none else some (("https://".data) ++ run)
  else if pfx ("http://".data) s then
    let run := (s.drop 7).takeWhile urlChar
    if run = [] then none else some (("http://".data) ++ run)
  else none

/-- Global-flag scan of the URL pattern: leftmost match, then continue
after its end.  `fuel` bounds the recursion; `body.length` always
suffices because every step consumes at least one character. -/
def scanUrlsF : Nat → List Char → List (List Char)
  | 0, _ => []
  | _, [] => []
  | fuel + 1, s@(_ :: t) =>
    match urlTokenAt s with
    | some m => m :: scanUrlsF fuel (s.drop m.length)
    | none => scanUrlsF fuel t

/-- `extractReferences` of github.ts (`body.match(urlPattern) || []`). -/
def extractReferences (body : List Char) : List (List Char) :=
  scanUrlsF body.length body

/-- ArticleRequest from types/article.ts (all fields populated by the
extractor, so optionals are plain here). -/
structure ArticleRequest where
  theme : List Char
  targetAudience : List Char
  tone : List Char
  targetLength : Nat
  additionalInstructions : List Char
  references : List (List Char)
deriving DecidableEq, Repr

/-- `parseIssueToArticleRequest` of github.ts.  `body` is `Option` to model
a possibly-null issue body (`issue.body || ''`). -/
def parseIssueToArticleRequest (number : Nat) (title : List Char)
    (body : Option (List Char)) : ArticleRequest :=
  let b := body.getD []
  let sections := parseIssueSections b
  let toneText := jsOr (secVal sections ("トーン".data)) (secVal sections ("tone".data))
  let lengthText := jsOr (secVal sections ("文字数".data)) (secVal sections ("length".data))
  let targetLength :=
    match firstDigitsRun lengthText with
    | some ds => digitsVal ds
    | none => 2000
  { theme := jsOr (secVal sections ("テーマ".data))
      (jsOr (secVal sections ("theme".data)) (stripKijiLabel title)),
    targetAudience := jsOr (secVal sections ("ターゲット読者".data))
      (secVal sections ("target".data)),
    tone := toneFrom toneText,
    targetLength := targetLength,
    additionalInstructions := jsOr (secVal sections ("追加指示".data))
      (secVal sections ("参考にしてほしいこと".data)),
    references := extractReferences b }

/-- The command vocabulary of `parseCommand` (regenerate-article.ts), in
source order. -/
def commandList : List (List Char) :=
  [("/regenerate".data), ("/shorter".data), ("/longer".data),
   ("/casual".data), ("/formal".data), ("/publish".data)]

/-- `parseCommand` of regenerate-article.ts: first listed command that the
comment body contains. -/
def parseCommand (body : List Char) : Option (List Char) :=
  commandList.find? (fun c => jsIncludes body c)

/-- `line.replace(/^#\s+/, '')`: one hash followed by at least one
whitespace character stripped, else unchanged. -/
def stripHashWsPlus (l : List Char) : List Char :=
  match l with
  | '#' :: c :: rest => if jsWs c then (c :: rest).dropWhile jsWs else l
  | _ => l

/-- `lines[0].replace(/^#+\s*/, '')`: a leading run of hashes (at least
one) and following whitespace stripped, else unchanged. -/
def stripHashesWsStar (l : List Char) : List Char :=
  if pfx ['#'] l then (l.dropWhile (fun c => c = '#')).dropWhile jsWs else l

/-- Index of the first line whose trimmed form starts with `# `, the
loop of `parseArticleContent`. -/
def firstHeadingIdx : List (List Char) → Option Nat
  | [] => none
  | l :: rest =>
    if pfx ("# ".data) (jsTrim l) then some 0
    else (firstHeadingIdx rest).map (· + 1)

/-- `parseArticleContent` of article-generator.ts, including its
empty-title fallback check. -/
def parseArticleContent (content : List Char) : List Char × List Char :=
  let lines := splitOnCh '\n' (jsTrim content)
  let hit := firstHeadingIdx lines
  let p1 : List Char × Nat :=
    match hit with
    | some i => (stripHashWsPlus (jsTrim (lines.getD i [])), i + 1)
    | none => ([], 0)
  let p2 : List Char × Nat :=
    if p1.1 = [] && decide (0 < lines.length) then
      (stripHashesWsStar (lines.headD []), 1)
    else p1
  (p2.1, jsTrim (joinNl (lines.drop p2.2)))

/-- The title/body rule as the specification states it: the first line
that after trimming begins with `# ` gives the title (hash and whitespace
stripped); lines strictly after it, rejoined and trimmed, give the body;
with no such line, the first line (leading hashes and whitespace
stripped) is the title and the remaining lines the body. -/
def titleBodySplitClaim (content : List Char) : List Char × List Char :=
  let lines := splitOnCh '\n' (jsTrim content)
  match firstHeadingIdx lines with
  | some i =>
    (stripHashWsPlus (jsTrim (lines.getD i [])), jsTrim (joinNl (lines.drop (i + 1))))
  | none =>
    (stripHashesWsStar (lines.headD []), jsTrim (joinNl (lines.drop 1)))

/-- FeedbackRequest from types/article.ts. -/
structure FeedbackRequest where
  feedback : List Char
  command : Option (List Char)
  originalArticle : Article
deriving DecidableEq, Repr

/-- The article value built by `generateArticle` from the generation
response, the summary response and the suggested tags (the external API
calls are parameters). -/
def generateArticleResult (reqTone reqTargetAudience : List Char)
    (responseText summaryText : List Char) (tags : List (List Char))
    (now : List Char) : Article :=
  let tb := parseArticleContent responseText
  { title := tb.1, content := tb.2, summary := summaryText,
    wordCount := countCharacters tb.2, generatedAt := now,
    metadata := { issueNumber := 0, tone := jsOr reqTone ("casual".data),
                  targetAudience := jsOr reqTargetAudience ("一般読者".data),
                  suggestedTags := tags } }

/-- The article value built by `regenerateWithFeedback` from the response
and summary: the metadata object is spread from the original article. -/
def regenerateWithFeedbackResult (req : FeedbackRequest)
    (responseText summaryText now : List Char) : Article :=
  let tb := parseArticleContent responseText
  { title := tb.1, content := tb.2, summary := summaryText,
    wordCount := countCharacters tb.2, generatedAt := now,
    metadata := req.originalArticle.metadata }

example : parseArticleContent ("# Hello\n\nWorld".data) = (("Hello".data), ("World".data)) := by decide
example : parseArticleContent ("No heading\nmore text".data) = (("No heading".data), ("more text".data)) := by decide
example : parseArticleContent [] = ([], []) := by decide
example : extractReferences ("see http://a.com/x and (https://b.com/y)".data) =
  [("http://a.com/x".data), ("https://b.com/y".data)] := by decide
example : parseCommand ("x /casual ok /shorter".data) = some ("/shorter".data) := by decide
example : parseIssueSections ("## テーマ\nAI\n## tone\nビジネス".data) =
  [(("テーマ".data), ("AI".data)), (("tone".data), ("ビジネス".data))] := by decide
example : (parseIssueToArticleRequest 1 ("記事作成: AIの未来".data) (some [])).theme =
  ("AIの未来".data) := by decide

/-! Basic facts about the string model. -/

theorem pfx_iff (p s : List Char) : pfx p s = true ↔ ∃ t, s = p ++ t := by
  induction p generalizing s with
  | nil => simpa [pfx] using ⟨s, rfl⟩
  | cons a as ih =>
    cases s with
    | nil => simp [pfx]
    | cons b bs =>
      simp only [pfx, Bool.and_eq_true, decide_eq_true_eq, ih]
      constructor
      · rintro ⟨rfl, t, rfl⟩; exact ⟨t, rfl⟩
      · rintro ⟨t, h⟩
        cases h
        exact ⟨rfl, t, rfl⟩

theorem pfx_append_self (p t : List Char) : pfx p (p ++ t) = true :=
  (pfx_iff p (p ++ t)).2 ⟨t, rfl⟩

theorem pfx_refl (p : List Char) : pfx p p = true := by
  simpa using pfx_append_self p []

theorem pfx_length_le {p s : List Char} (h : pfx p s = true) :
    p.length ≤ s.length := by
  rcases (pfx_iff p s).1 h with ⟨t, rfl⟩
  simp

theorem pfx_eq_take {p s : List Char} (h : pfx p s = true) :
    p = s.take p.length := by
  rcases (pfx_iff p s).1 h with ⟨t, rfl⟩
  simp

theorem pfx_cases {k u b : List Char} (h : pfx k (u ++ b) = true) :
    pfx k u = true ∨ (pfx u k = true ∧ pfx (k.drop u.length) b = true) := by
  induction u generalizing k with
  | nil => right; simpa [pfx] using h
  | cons x xs ih =>
    cases k with
    | nil => left; rfl
    | cons y ys =>
      simp only [List.cons_append, pfx, Bool.and_eq_true, decide_eq_true_eq] at h
      obtain ⟨rfl, h2⟩ := h
      rcases ih h2 with h3 | ⟨h3, h4⟩
      · left; simp [pfx, h3]
      · right
        refine ⟨by simp [pfx, h3], ?_⟩
        simpa using h4

theorem pfx_mem {p s : List Char} (h : pfx p s = true) {c : Char}
    (hc : c ∈ p) : c ∈ s := by
  rcases (pfx_iff p s).1 h with ⟨t, rfl⟩
  exact List.mem_append_left _ hc

theorem endsW_iff (p s : List Char) : endsW p s = true ↔ ∃ a, s = a ++ p := by
  rw [endsW, pfx_iff]
  constructor
  · rintro ⟨t, h⟩
    refine ⟨t.reverse, ?_⟩
    have := congrArg List.reverse h
    simpa using this
  · rintro ⟨a, rfl⟩
    exact ⟨a.reverse, by simp⟩

theorem drop_append_le {α : Type} (a b : List α) {i : Nat} (h : i ≤ a.length) :
    (a ++ b).drop i = a.drop i ++ b :=
  List.drop_append_of_le_length h

theorem drop_append_ge {α : Type} (a b : List α) {i : Nat} (h : a.length ≤ i) :
    (a ++ b).drop i = b.drop (i - a.length) := by
  have : i = a.length + (i - a.length) := by omega
  rw [this, List.drop_append]
  congr 1
  omega

/-- No position strictly inside `a` (continued by `b`) passes `test`. -/
def NoHit (test : List Char → Bool) (a b : List Char) : Prop :=
  ∀ i, i < a.length → test (a.drop i ++ b) = false

theorem noHit_nil (test : List Char → Bool) (b : List Char) :
    NoHit test [] b := by
  intro i hi
  simp at hi

theorem noHit_append {test : List Char → Bool} {x y b : List Char}
    (hx : NoHit test x (y ++ b)) (hy : NoHit test y b) :
    NoHit test (x ++ y) b := by
  intro i hi
  rcases Nat.lt_or_ge i x.length with h | h
  · rw [drop_append_le x y (Nat.le_of_lt h), List.append_assoc]
    exact hx i h
  · rw [drop_append_ge x y h]
    refine hy (i - x.length) ?_
    simp [List.length_append] at hi
    omega

theorem noHit_cons {test : List Char → Bool} {c : Char} {y b : List Char}
    (h0 : test ((c :: y) ++ b) = false) (hy : NoHit test y b) :
    NoHit test (c :: y) b := by
  intro i hi
  cases i with
  | zero => simpa using h0
  | succ j =>
    simp only [List.length_cons, Nat.succ_lt_succ_iff] at hi
    simpa using hy j hi

/-- Lift: a test that requires a `pfx key` hit never fires where no
occurrence of `key` starts. -/
theorem noHit_lift {key : List Char} {extra : List Char → Bool}
    {a b : List Char} (h : NoHit (fun s => pfx key s) a b) :
    NoHit (fun s => pfx key s && extra s) a b := by
  intro i hi
  have := h i hi
  simp [this]

/-- Every character of `a` differs from the head of the (nonempty)
pattern: no occurrence can start inside `a`. -/
theorem noHit_pfx_headNe {k0 : Char} {ks a b : List Char}
    (h : ∀ c ∈ a, c ≠ k0) : NoHit (fun s => pfx (k0 :: ks) s) a b := by
  intro i hi
  rw [List.drop_eq_getElem_cons hi]
  have hmem : a[i] ∈ a := List.getElem_mem hi
  have : a[i] ≠ k0 := h _ hmem
  simp [pfx, List.cons_append, this, Ne.symm this]

/-- Decidable side condition for literal segments: no nonempty tail of
`lit` is prefix-comparable with `key`. -/
def litOk (key lit : List Char) : Bool :=
  (List.range lit.length).all
    (fun i => !pfx key (lit.drop i) && !pfx (lit.drop i) key)

theorem noHit_pfx_lit {key lit : List Char} (h : litOk key lit = true)
    (b : List Char) : NoHit (fun s => pfx key s) lit b := by
  intro i hi
  have hh := (List.all_eq_true.1 h) i (List.mem_range.2 hi)
  simp only [Bool.and_eq_true, Bool.not_eq_true'] at hh
  by_contra hcon
  rw [Bool.not_eq_false] at hcon
  rcases pfx_cases hcon with h1 | ⟨h1, _⟩
  · rw [hh.1] at h1; exact Bool.false_ne_true h1
  · rw [hh.2] at h1; exact Bool.false_ne_true h1

/-- Safety predicate on a serialized header field: no double quote, no
line terminator. -/
def SafeF (s : List Char) : Bool :=
  s.all (fun c => c ≠ '"' && !isLineTerm c)

theorem safeF_no_quote {s : List Char} (h : SafeF s = true) {c : Char}
    (hc : c ∈ s) : c ≠ '"' := by
  have := (List.all_eq_true.1 h) c hc
  simp only [Bool.and_eq_true, decide_eq_true_eq] at this
  exact this.1

theorem safeF_no_term {s : List Char} (h : SafeF s = true) {c : Char}
    (hc : c ∈ s) : isLineTerm c = false := by
  have := (List.all_eq_true.1 h) c hc
  simp only [Bool.and_eq_true, Bool.not_eq_true'] at this
  exact this.2

theorem safeF_no_nl {s : List Char} (h : SafeF s = true) {c : Char}
    (hc : c ∈ s) : c ≠ '\n' := by
  intro heq
  have := safeF_no_term h hc
  rw [heq] at this
  simp [isLineTerm] at this

theorem takeWhile_all_append {f : Char → Bool} {v : List Char}
    (hv : ∀ c ∈ v, f c = true) (w : List Char) :
    (v ++ w).takeWhile f = v ++ w.takeWhile f := by
  induction v with
  | nil => simp
  | cons c t ih =>
    have hc := hv c (List.mem_cons_self c t)
    simp only [List.cons_append, List.takeWhile_cons, hc, if_true]
    rw [ih (fun x hx => hv x (List.mem_cons_of_mem c hx))]

theorem dropWhile_all_append {f : Char → Bool} {v : List Char}
    (hv : ∀ c ∈ v, f c = true) (w : List Char) :
    (v ++ w).dropWhile f = w.dropWhile f := by
  induction v with
  | nil => simp
  | cons c t ih =>
    have hc := hv c (List.mem_cons_self c t)
    simp only [List.cons_append, List.dropWhile_cons, hc, if_true]
    exact ih (fun x hx => hv x (List.mem_cons_of_mem c hx))

theorem takeWhile_all {f : Char → Bool} {v : List Char}
    (hv : ∀ c ∈ v, f c = true) : v.takeWhile f = v := by
  simpa using takeWhile_all_append hv []

theorem beforeLast_quote {v w : List Char} (hv : ∀ c ∈ v, c ≠ '"')
    (hw : ∀ c ∈ w, c ≠ '"') : beforeLast '"' (v ++ '"' :: w) = v := by
  unfold beforeLast
  rw [List.reverse_append, List.reverse_cons, List.append_assoc]
  rw [dropWhile_all_append (f := fun c => decide (c ≠ '"'))
    (fun c hc => by simpa using hw c (List.mem_reverse.1 hc))]
  simp

theorem lineOf_append_safe {v : List Char} (hv : SafeF v = true)
    (w : List Char) : lineOf (v ++ w) = v ++ lineOf w := by
  unfold lineOf
  exact takeWhile_all_append
    (fun c hc => by simpa using safeF_no_term hv hc) w

/-- The full-pattern test for `extractQuoted` at the head of a string. -/
def fullQ (key s : List Char) : Bool :=
  pfx key s && hasQuote (lineOf (s.drop key.length))

/-- The full-pattern test for `extractDigitsRun` at the head of a string. -/
def fullD (key s : List Char) : Bool :=
  pfx key s && !((s.drop key.length).takeWhile jsDigit).isEmpty

theorem noHit_tail {test : List Char → Bool} {c : Char} {a b : List Char}
    (h : NoHit test (c :: a) b) : NoHit test a b := by
  intro i hi
  have := h (i + 1) (by simpa using Nat.succ_lt_succ hi)
  simpa using this

theorem extractQuoted_skip {key : List Char} :
    ∀ {a : List Char} {b : List Char}, NoHit (fullQ key) a b →
      extractQuoted key (a ++ b) = extractQuoted key b := by
  intro a
  induction a with
  | nil => intro b _; simp
  | cons c t ih =>
    intro b h
    have h0 := h 0 (by simp)
    simp only [List.drop_zero] at h0
    rw [List.cons_append, extractQuoted]
    rcases hp : pfx key (c :: (t ++ b)) with _ | _
    · simp only [hp, Bool.false_eq_true, if_false]
      exact ih (noHit_tail h)
    · have hq : hasQuote (lineOf ((c :: (t ++ b)).drop key.length)) = false := by
        rw [fullQ, List.cons_append] at h0
        rw [hp] at h0
        simpa using h0
      simp only [hp, if_true, hq, Bool.false_eq_true, if_false]
      exact ih (noHit_tail h)

theorem extractQuoted_here {key v bs : List Char} (hkey : key ≠ [])
    (hv : SafeF v = true) (hbs : hasQuote (lineOf bs) = false) :
    extractQuoted key (key ++ (v ++ '"' :: bs)) = some v := by
  cases key with
  | nil => exact absurd rfl hkey
  | cons k ks =>
    rw [List.cons_append, extractQuoted]
    have hp : pfx (k :: ks) ((k :: ks) ++ (v ++ '"' :: bs)) = true :=
      pfx_append_self _ _
    rw [List.cons_append] at hp
    simp only [hp, if_true]
    have hdrop : ((k :: ks) ++ (v ++ '"' :: bs)).drop (k :: ks).length
        = v ++ '"' :: bs := List.drop_left _ _
    rw [List.cons_append] at hdrop
    simp only [hdrop]
    have hline : lineOf (v ++ '"' :: bs) = v ++ '"' :: lineOf bs := by
      rw [lineOf_append_safe hv]
      simp [lineOf, List.takeWhile_cons, isLineTerm]
    rw [hline]
    have hq : hasQuote (v ++ '"' :: lineOf bs) = true := by
      simp [hasQuote]
    simp only [hq, if_true]
    congr 1
    apply beforeLast_quote
    · exact fun c hc => safeF_no_quote hv hc
    · intro c hc
      rw [hasQuote] at hbs
      have h2 := (List.any_eq_false.1 hbs) c hc
      simpa using h2

theorem extractDigitsRun_skip {key : List Char} :
    ∀ {a : List Char} {b : List Char}, NoHit (fullD key) a b →
      extractDigitsRun key (a ++ b) = extractDigitsRun key b := by
  intro a
  induction a with
  | nil => intro b _; simp
  | cons c t ih =>
    intro b h
    have h0 := h 0 (by simp)
    simp only [List.drop_zero] at h0
    rw [List.cons_append, extractDigitsRun]
    rcases hp : pfx key (c :: (t ++ b)) with _ | _
    · simp only [hp, Bool.false_eq_true, if_false]
      exact ih (noHit_tail h)
    · have hq : ((c :: (t ++ b)).drop key.length).takeWhile jsDigit = [] := by
        rw [fullD, List.cons_append] at h0
        rw [hp] at h0
        simpa [List.isEmpty_iff] using h0
      simp only [hp, if_true, hq, if_true]
      exact ih (noHit_tail h)

theorem extractDigitsRun_here {key ds bs : List Char} (hkey : key ≠ [])
    (hds : ∀ c ∈ ds, jsDigit c = true) (hne : ds ≠ [])
    (hbs : jsDigit (bs.headD '#') = false) :
    extractDigitsRun key (key ++ (ds ++ bs)) = some ds := by
  cases key with
  | nil => exact absurd rfl hkey
  | cons k ks =>
    rw [List.cons_append, extractDigitsRun]
    have hp : pfx (k :: ks) ((k :: ks) ++ (ds ++ bs)) = true :=
      pfx_append_self _ _
    rw [List.cons_append] at hp
    simp only [hp, if_true]
    have hdrop : ((k :: ks) ++ (ds ++ bs)).drop (k :: ks).length = ds ++ bs :=
      List.drop_left _ _
    rw [List.cons_append] at hdrop
    simp only [hdrop]
    have hrun : (ds ++ bs).takeWhile jsDigit = ds := by
      rw [takeWhile_all_append hds]
      cases bs with
      | nil => simp
      | cons x xs =>
        simp only [List.headD_cons] at hbs
        simp [List.takeWhile_cons, hbs]
    rw [hrun]
    simp [hne]

/-- Does `s` contain the key followed immediately by a digit (the digit
taken from `s` itself)?  Decidable injection test used as a round-trip
hypothesis. -/
def keyDigitInj (key s : List Char) : Bool :=
  (List.range s.length).any
    (fun i => pfx key (s.drop i) && jsDigit ((s.drop (i + key.length)).headD '#'))

theorem headD_append_of_ne_nil {x : List Char} (hx : x ≠ []) (b : List Char)
    (d : Char) : (x ++ b).headD d = x.headD d := by
  cases x with
  | nil => exact absurd rfl hx
  | cons c t => simp

/-- No full quoted-key match can start inside a safe field `v` that is
followed by a closing quote: an occurrence of the key would need the
quote, and the only candidate is the structural quote just after `v`,
where either the key is not a suffix of `v` or the rest of the line after
the quote has no further quote. -/
theorem noHit_fullQ_field {K v bs2 : List Char}
    (hK : ∀ c ∈ K, c ≠ '"') (hv : SafeF v = true)
    (hend : endsW K v = false ∨ hasQuote (lineOf bs2) = false) :
    NoHit (fullQ (K ++ ['"'])) v ('"' :: bs2) := by
  intro i hi
  set u := v.drop i with hu
  have husub : ∀ c ∈ u, c ∈ v := fun c hc => List.mem_of_mem_drop hc
  rcases hocc : pfx (K ++ ['"']) u with _ | _
  · -- the key does not fit inside the suffix
    rcases hp : pfx (K ++ ['"']) (u ++ '"' :: bs2) with _ | _
    · simp [fullQ, hp]
    · rcases pfx_cases hp with h1 | ⟨h1, h2⟩
      · rw [hocc] at h1; exact absurd h1 (by simp)
      · -- u is a proper prefix of the key
        have hlen : u.length ≤ (K ++ ['"']).length := pfx_length_le h1
        rcases Nat.lt_or_ge u.length K.length with hlt | hge
        · -- the continuation would have to start with a non-quote key char
          exfalso
          have hdropK : (K ++ ['"']).drop u.length = K.drop u.length ++ ['"'] :=
            drop_append_le K ['"'] (Nat.le_of_lt hlt)
          rw [hdropK] at h2
          have hKd : K.drop u.length = K[u.length] :: K.drop (u.length + 1) :=
            List.drop_eq_getElem_cons hlt
          rw [hKd, List.cons_append] at h2
          simp only [pfx, Bool.and_eq_true, decide_eq_true_eq] at h2
          exact hK _ (List.getElem_mem hlt) h2.1
        · -- u would contain the quote of the key, or be exactly K
          rcases Nat.lt_or_ge u.length (K ++ ['"']).length with hlt2 | hge2
          · have hlenK : u.length = K.length := by
              simp only [List.length_append, List.length_cons,
                List.length_nil] at hlt2
              omega
            have huK : u = K := by
              have := pfx_eq_take h1
              rw [hlenK] at this
              simpa using this
            -- then K is a suffix of v, so the right disjunct applies,
            -- and the rest of the line after the structural quote is bs2
            have hendT : endsW K v = true := by
              rw [endsW_iff]
              exact ⟨v.take i, by rw [← huK, hu]; simp⟩
            have hbs2 : hasQuote (lineOf bs2) = false := by
              rcases hend with h | h
              · rw [hendT] at h; cases h
              · exact h
            have hdrop : (u ++ '"' :: bs2).drop (K.length + 1) = bs2 := by
              have h3 : u ++ '"' :: bs2 = (u ++ ['"']) ++ bs2 := by simp
              have hl : (u ++ ['"']).length = K.length + 1 := by simp [hlenK]
              rw [h3, ← hl]
              exact List.drop_left _ _
            rw [fullQ]
            have hlen2 : (K ++ ['"']).length = K.length + 1 := by simp
            rw [hlen2, hdrop, hbs2]
            simp
          · exfalso
            have hlenK : u.length = (K ++ ['"']).length := Nat.le_antisymm hlen hge2
            have huK : u = K ++ ['"'] := by
              have h4 := pfx_eq_take h1
              rw [hlenK, List.take_length] at h4
              exact h4
            have : '"' ∈ u := by rw [huK]; simp
            exact safeF_no_quote hv (husub _ this) rfl
  · -- the key occurs fully inside the suffix: it contains a quote
    exfalso
    have : '"' ∈ u := pfx_mem hocc (by simp)
    exact safeF_no_quote hv (husub _ this) rfl

/-- No digit-key match can start inside a safe field `v` followed by a
structural quote, provided `v` has no internal key-digit injection. -/
theorem noHit_fullD_field {key v bs2 : List Char}
    (hK : ∀ c ∈ key, c ≠ '"') (hv : SafeF v = true)
    (hinj : keyDigitInj key v = false) :
    NoHit (fullD key) v ('"' :: bs2) := by
  intro i hi
  set u := v.drop i with hu
  rcases hocc : pfx key u with _ | _
  · -- no full occurrence of the key inside the suffix
    rcases hp : pfx key (u ++ '"' :: bs2) with _ | _
    · simp [fullD, hp]
    · rcases pfx_cases hp with h1 | ⟨h1, h2⟩
      · rw [hocc] at h1; exact absurd h1 (by simp)
      · have hlen : u.length ≤ key.length := pfx_length_le h1
        rcases Nat.lt_or_ge u.length key.length with hlt | hge
        · exfalso
          have hKd : key.drop u.length = key[u.length] :: key.drop (u.length + 1) :=
            List.drop_eq_getElem_cons hlt
          rw [hKd] at h2
          simp only [pfx, Bool.and_eq_true, decide_eq_true_eq] at h2
          exact hK _ (List.getElem_mem hlt) h2.1
        · exfalso
          have hlenK : u.length = key.length := Nat.le_antisymm hlen hge
          have huK : u = key := by
            have := pfx_eq_take h1
            rw [hlenK] at this
            simpa using this
          rw [← huK, pfx_refl] at hocc
          simp at hocc
  · -- full occurrence at position i inside v: the injection test rules
    -- out a following digit, and past the end of v sits a quote
    have hrange := (List.any_eq_false.1 hinj) i (List.mem_range.2 hi)
    rw [← hu, hocc] at hrange
    simp only [Bool.true_and] at hrange
    have hlekey : key.length ≤ (List.drop i v).length := by
      have h5 := pfx_length_le hocc
      simpa [hu] using h5
    have hdd : (u ++ '"' :: bs2).drop key.length
        = v.drop (i + key.length) ++ '"' :: bs2 := by
      rw [hu, drop_append_le _ _ hlekey]
      simp [List.drop_drop, Nat.add_comm]
    rcases hrest : v.drop (i + key.length) with _ | ⟨x, xs⟩
    · -- key ends exactly at the end of v; next char is the quote
      have : (u ++ '"' :: bs2).drop key.length = '"' :: bs2 := by
        rw [hdd, hrest]; simp
      simp [fullD, this, List.takeWhile_cons, jsDigit]
    · -- next char is inside v and is not a digit by `hinj`
      have hx : jsDigit x = false := by
        rw [hrest] at hrange
        simpa using hrange
      have : (u ++ '"' :: bs2).drop key.length = x :: (xs ++ '"' :: bs2) := by
        rw [hdd, hrest]; simp
      simp [fullD, this, List.takeWhile_cons, hx]

theorem findSub_append {p a b : List Char}
    (h : NoHit (fun s => pfx p s) a b) (hb : pfx p b = true) :
    findSub p (a ++ b) = some a.length := by
  induction a with
  | nil =>
    cases b with
    | nil => simp [findSub, hb]
    | cons x t => simp [findSub, hb]
  | cons c t ih =>
    have h0 := h 0 (by simp)
    simp only [List.drop_zero] at h0
    rw [List.cons_append, findSub]
    rw [List.cons_append] at h0
    simp only [h0, Bool.false_eq_true, if_false]
    rw [ih (noHit_tail h)]
    simp

theorem ne_of_jsDigit {c x : Char} (h : jsDigit c = true)
    (hx : jsDigit x = false) : c ≠ x := by
  intro heq
  rw [heq, hx] at h
  cases h

theorem digitCh_digit {d : Nat} (hd : d < 10) : jsDigit (digitCh d) = true := by
  interval_cases d <;> decide

theorem digitCh_val {d : Nat} (hd : d < 10) : (digitCh d).toNat - 48 = d := by
  interval_cases d <;> decide

theorem digitsVal_append_last (xs : List Char) (c : Char) :
    digitsVal (xs ++ [c]) = digitsVal xs * 10 + (c.toNat - 48) := by
  unfold digitsVal
  rw [List.foldl_append]
  rfl

theorem natDigitsF_spec :
    ∀ fuel n, n < 10 ^ (fuel + 1) →
      natDigitsF (fuel + 1) n ≠ [] ∧
      (∀ c ∈ natDigitsF (fuel + 1) n, jsDigit c = true) ∧
      digitsVal (natDigitsF (fuel + 1) n) = n := by
  intro fuel
  induction fuel with
  | zero =>
    intro n hn
    have h10 : n < 10 := by simpa using hn
    simp only [natDigitsF, h10, if_true]
    refine ⟨by simp, ?_, ?_⟩
    · intro c hc
      simp only [List.mem_singleton] at hc
      subst hc
      exact digitCh_digit h10
    · simp [digitsVal, digitCh_val h10]
  | succ f ih =>
    intro n hn
    by_cases h10 : n < 10
    · simp only [natDigitsF, h10, if_true]
      refine ⟨by simp, ?_, ?_⟩
      · intro c hc
        simp only [List.mem_singleton] at hc
        subst hc
        exact digitCh_digit h10
      · simp [digitsVal, digitCh_val h10]
    · have hdiv : n / 10 < 10 ^ (f + 1) := by
        rw [Nat.div_lt_iff_lt_mul (by norm_num)]
        calc n < 10 ^ (f + 1 + 1) := hn
        _ = 10 ^ (f + 1) * 10 := by ring
      obtain ⟨hne, hall, hval⟩ := ih (n / 10) hdiv
      have heq : natDigitsF (f + 1 + 1) n
          = natDigitsF (f + 1) (n / 10) ++ [digitCh (n % 10)] := by
        rw [natDigitsF]
        simp [h10]
      refine ⟨by simp [heq], ?_, ?_⟩
      · intro c hc
        rw [heq, List.mem_append] at hc
        rcases hc with hc | hc
        · exact hall c hc
        · simp only [List.mem_singleton] at hc
          subst hc
          exact digitCh_digit (Nat.mod_lt _ (by norm_num))
      · rw [heq, digitsVal_append_last, hval,
          digitCh_val (Nat.mod_lt _ (by norm_num))]
        omega

theorem natDigits_spec (n : Nat) :
    natDigits n ≠ [] ∧ (∀ c ∈ natDigits n, jsDigit c = true) ∧
    digitsVal (natDigits n) = n := by
  apply natDigitsF_spec
  calc n < 10 ^ n := Nat.lt_pow_self (by norm_num) n
  _ ≤ 10 ^ (n + 1) := Nat.pow_le_pow_right (by norm_num) (Nat.le_succ n)

theorem escQ_id {s : List Char} (h : ∀ c ∈ s, c ≠ '"') : escQ s = s := by
  induction s with
  | nil => rfl
  | cons c t ih =>
    have hc := h c (List.mem_cons_self c t)
    have ht := ih (fun x hx => h x (List.mem_cons_of_mem c hx))
    simp only [escQ, List.map_cons, List.flatten_cons, if_neg hc]
    simp only [escQ] at ht
    simp [ht]

theorem filter_dropWhile_not (p : Char → Bool) (s : List Char) :
    (s.dropWhile p).filter (fun c => !p c) = s.filter (fun c => !p c) := by
  induction s with
  | nil => rfl
  | cons c t ih =>
    cases hp : p c with
    | true => simp [List.dropWhile_cons, List.filter_cons, hp, ih]
    | false => simp [List.dropWhile_cons, List.filter_cons, hp]

theorem countCharacters_reverse (s : List Char) :
    countCharacters s.reverse = countCharacters s := by
  unfold countCharacters
  rw [List.filter_reverse, List.length_reverse]

theorem countCharacters_dropWhileWs (s : List Char) :
    countCharacters (s.dropWhile jsWs) = countCharacters s := by
  unfold countCharacters
  rw [filter_dropWhile_not]

theorem countCharacters_trim (s : List Char) :
    countCharacters (jsTrim s) = countCharacters s := by
  unfold jsTrim
  rw [countCharacters_reverse, countCharacters_dropWhileWs,
    countCharacters_reverse, countCharacters_dropWhileWs]

theorem splitOnCh_ne_nil (sep : Char) (s : List Char) :
    splitOnCh sep s ≠ [] := by
  cases s with
  | nil => simp [splitOnCh]
  | cons c t =>
    rw [splitOnCh]
    rcases h : splitOnCh sep t with _ | ⟨x, xs⟩
    · simp
    · by_cases hc : c = sep <;> simp [hc]

theorem dropWhile_head_not {p : Char → Bool} (l : List Char) :
    ∀ {c : Char} {t : List Char}, l.dropWhile p = c :: t → p c = false := by
  induction l with
  | nil => intro c t h; cases h
  | cons x xs ih =>
    intro c t h
    rw [List.dropWhile_cons] at h
    by_cases hp : p x
    · rw [if_pos hp] at h
      exact ih h
    · rw [if_neg hp] at h
      cases h
      simpa using hp

theorem findFoot_eq_none {b : List Char}
    (h : ∀ i, footHere (b.drop i) = false) : findFoot b = none := by
  induction b with
  | nil => rfl
  | cons c t ih =>
    rw [findFoot]
    have h0 := h 0
    simp only [List.drop_zero] at h0
    rw [h0]
    simp only [Bool.false_eq_true, if_false]
    rw [ih (fun i => by simpa using h (i + 1))]
    rfl

theorem footHere_drop_false {body : List Char}
    (hl : body.getLast? = some '\n') (i : Nat) :
    footHere (body.drop i) = false := by
  rcases hp : pfx footMark (body.drop i) with _ | _
  · simp [footHere, hp]
  · obtain ⟨t, ht⟩ := (pfx_iff _ _).1 hp
    have hbody : body = body.take i ++ (footMark ++ t) := by
      rw [← ht, List.take_append_drop]
    have hdrop : (body.drop i).drop footMark.length = t := by
      rw [ht, List.drop_left]
    cases t with
    | nil =>
      exfalso
      rw [List.append_nil] at hbody
      have h6 : body.getLast? = some 'は' := by
        rw [hbody, List.getLast?_append,
          show footMark.getLast? = some 'は' from rfl]
        rfl
      rw [hl] at h6
      exact absurd h6 (by decide)
    | cons x xs =>
      have h8 : (x :: xs).getLast? = some ((x :: xs).getLast (by simp)) :=
        List.getLast?_eq_getLast _ _
      have h7 : body.getLast? = (x :: xs).getLast? := by
        rw [hbody, ← List.append_assoc, List.getLast?_append, h8]
        rfl
      have hlast : (x :: xs).getLast (by simp) = '\n' := by
        rw [h7, h8] at hl
        simpa using hl
      have hmem : '\n' ∈ x :: xs := hlast ▸ List.getLast_mem _
      have hall : ((body.drop i).drop footMark.length).all
          (fun c => !isLineTerm c) = false := by
        rw [hdrop, List.all_eq_false]
        exact ⟨'\n', hmem, by simp [isLineTerm]⟩
      rw [footHere, hp, Bool.true_and]
      exact hall

theorem stripFoot_id_of_last_nl {body : List Char}
    (hl : body.getLast? = some '\n') : stripFoot body = body := by
  unfold stripFoot
  rw [findFoot_eq_none (footHere_drop_false hl)]

theorem stripLeadTitle_nl (x : List Char) :
    stripLeadTitle ('\n' :: x) = '\n' :: x := by
  unfold stripLeadTitle
  simp [pfx]

/-- Characters of a joined tag list. -/
theorem mem_tagsJoin {c : Char} :
    ∀ {tags : List (List Char)}, c ∈ tagsJoin tags →
      c = '"' ∨ c = ',' ∨ c = ' ' ∨ ∃ t ∈ tags, c ∈ t := by
  intro tags
  induction tags with
  | nil => intro h; cases h
  | cons t rest ih =>
    intro h
    cases rest with
    | nil =>
      rw [tagsJoin] at h
      rcases List.mem_cons.1 h with h | h
      · exact Or.inl h
      · rcases List.mem_append.1 h with h | h
        · exact Or.inr (Or.inr (Or.inr ⟨t, by simp, h⟩))
        · exact Or.inl (List.mem_singleton.1 h)
    | cons t2 rest2 =>
      rw [show tagsJoin (t :: t2 :: rest2)
          = '"' :: (t ++ ('"' :: ((", ".data) ++ tagsJoin (t2 :: rest2))))
        from rfl] at h
      rcases List.mem_cons.1 h with h | h
      · exact Or.inl h
      · rcases List.mem_append.1 h with h | h
        · exact Or.inr (Or.inr (Or.inr ⟨t, by simp, h⟩))
        · rcases List.mem_cons.1 h with h | h
          · exact Or.inl h
          · have hdata : (", ".data) = [',', ' '] := rfl
            rw [hdata] at h
            rcases List.mem_append.1 h with h | h
            · rcases List.mem_cons.1 h with h | h
              · exact Or.inr (Or.inl h)
              · exact Or.inr (Or.inr (Or.inl (List.mem_singleton.1 h)))
            · rcases ih h with h | h | h | ⟨u, hu, hc⟩
              · exact Or.inl h
              · exact Or.inr (Or.inl h)
              · exact Or.inr (Or.inr (Or.inl h))
              · exact Or.inr (Or.inr (Or.inr
                  ⟨u, List.mem_cons_of_mem _ hu, hc⟩))

theorem noHit_fullQ_of_pfx {key a b : List Char}
    (h : NoHit (fun s => pfx key s) a b) : NoHit (fullQ key) a b := by
  intro i hi
  have := h i hi
  simp [fullQ, this]

theorem noHit_fullD_of_pfx {key a b : List Char}
    (h : NoHit (fun s => pfx key s) a b) : NoHit (fullD key) a b := by
  intro i hi
  have := h i hi
  simp [fullD, this]

theorem pfx_cons_ne {k0 c : Char} {ks rest : List Char} (h : k0 ≠ c) :
    pfx (k0 :: ks) (c :: rest) = false := by
  simp [pfx, h]

theorem fullQ_cons_ne {k0 c : Char} {ks rest : List Char} (h : k0 ≠ c) :
    fullQ (k0 :: ks) (c :: rest) = false := by
  simp [fullQ, pfx_cons_ne h]

theorem fullD_cons_ne {k0 c : Char} {ks rest : List Char} (h : k0 ≠ c) :
    fullD (k0 :: ks) (c :: rest) = false := by
  simp [fullD, pfx_cons_ne h]

theorem noHit_singleton {test : List Char → Bool} {c : Char} {b : List Char}
    (h : test (c :: b) = false) : NoHit test [c] b := by
  intro i hi
  simp only [List.length_singleton, Nat.lt_one_iff] at hi
  subst hi
  simpa using h

theorem noHit_fullQ_tagsJoin {k0 : Char} {ks : List Char}
    (hk0q : k0 ≠ '"') (hk0c : k0 ≠ ',') (hk0s : k0 ≠ ' ')
    (hK : ∀ c ∈ k0 :: ks, c ≠ '"') :
    ∀ {tags : List (List Char)},
      (∀ t ∈ tags, SafeF t = true ∧ endsW (k0 :: ks) t = false) →
      ∀ b, NoHit (fullQ ((k0 :: ks) ++ ['"'])) (tagsJoin tags) b := by
  intro tags
  induction tags with
  | nil => intro _ b; exact noHit_nil _ b
  | cons t rest ih =>
    intro htags b
    obtain ⟨hts, hte⟩ := htags t (List.mem_cons_self t rest)
    cases rest with
    | nil =>
      rw [tagsJoin]
      apply noHit_cons
      · rw [List.cons_append]
        exact fullQ_cons_ne hk0q
      · apply noHit_append (y := ['"'])
        · rw [show (['"'] : List Char) ++ b = '"' :: b from rfl]
          exact noHit_fullQ_field hK hts (Or.inl hte)
        · apply noHit_singleton
          exact fullQ_cons_ne hk0q
    | cons t2 rest2 =>
      rw [show tagsJoin (t :: t2 :: rest2)
          = '"' :: (t ++ ('"' :: ((", ".data) ++ tagsJoin (t2 :: rest2))))
        from rfl]
      apply noHit_cons
      · rw [List.cons_append]
        exact fullQ_cons_ne hk0q
      · apply noHit_append (y := '"' :: ((", ".data) ++ tagsJoin (t2 :: rest2)))
        · rw [List.cons_append]
          exact noHit_fullQ_field hK hts (Or.inl hte)
        · apply noHit_cons
          · rw [List.cons_append]
            exact fullQ_cons_ne hk0q
          · apply noHit_append (x := (", ".data))
            · rw [show ((", ".data) : List Char) = [','] ++ [' '] from rfl]
              apply noHit_append (x := [','])
              · exact noHit_singleton (fullQ_cons_ne hk0c)
              · exact noHit_singleton (fullQ_cons_ne hk0s)
            · exact ih (fun u hu => htags u (List.mem_cons_of_mem t hu)) b

theorem noHit_fullD_tagsJoin {k0 : Char} {ks : List Char}
    (hk0q : k0 ≠ '"') (hk0c : k0 ≠ ',') (hk0s : k0 ≠ ' ')
    (hK : ∀ c ∈ k0 :: ks, c ≠ '"') :
    ∀ {tags : List (List Char)},
      (∀ t ∈ tags, SafeF t = true ∧ keyDigitInj (k0 :: ks) t = false) →
      ∀ b, NoHit (fullD (k0 :: ks)) (tagsJoin tags) b := by
  intro tags
  induction tags with
  | nil => intro _ b; exact noHit_nil _ b
  | cons t rest ih =>
    intro htags b
    obtain ⟨hts, hti⟩ := htags t (List.mem_cons_self t rest)
    cases rest with
    | nil =>
      rw [tagsJoin]
      apply noHit_cons
      · rw [List.cons_append]
        exact fullD_cons_ne hk0q
      · apply noHit_append (y := ['"'])
        · rw [show (['"'] : List Char) ++ b = '"' :: b from rfl]
          exact noHit_fullD_field hK hts hti
        · apply noHit_singleton
          exact fullD_cons_ne hk0q
    | cons t2 rest2 =>
      rw [show tagsJoin (t :: t2 :: rest2)
          = '"' :: (t ++ ('"' :: ((", ".data) ++ tagsJoin (t2 :: rest2))))
        from rfl]
      apply noHit_cons
      · rw [List.cons_append]
        exact fullD_cons_ne hk0q
      · apply noHit_append (y := '"' :: ((", ".data) ++ tagsJoin (t2 :: rest2)))
        · rw [List.cons_append]
          exact noHit_fullD_field hK hts hti
        · apply noHit_cons
          · rw [List.cons_append]
            exact fullD_cons_ne hk0q
          · apply noHit_append (x := (", ".data))
            · rw [show ((", ".data) : List Char) = [','] ++ [' '] from rfl]
              apply noHit_append (x := [','])
              · exact noHit_singleton (fullD_cons_ne hk0c)
              · exact noHit_singleton (fullD_cons_ne hk0s)
            · exact ih (fun u hu => htags u (List.mem_cons_of_mem t hu)) b

theorem tagsJoin_no_nl {tags : List (List Char)}
    (h : ∀ t ∈ tags, SafeF t = true) :
    ∀ c ∈ tagsJoin tags, c ≠ '\n' := by
  intro c hc
  rcases mem_tagsJoin hc with h1 | h1 | h1 | ⟨u, hu, hcu⟩
  · subst h1; decide
  · subst h1; decide
  · subst h1; decide
  · exact safeF_no_nl (h u hu) hcu

theorem noHit_fullQ_field2 {K v b : List Char}
    (hK : ∀ c ∈ K, c ≠ '"') (hv : SafeF v = true)
    (hb : b.head? = some '"')
    (hend : endsW K v = false ∨ hasQuote (lineOf b.tail) = false) :
    NoHit (fullQ (K ++ ['"'])) v b := by
  cases b with
  | nil => cases hb
  | cons c bs2 =>
    have hc : c = '"' := by simpa using hb
    subst hc
    exact noHit_fullQ_field hK hv (by simpa using hend)

theorem noHit_fullD_field2 {key v b : List Char}
    (hK : ∀ c ∈ key, c ≠ '"') (hv : SafeF v = true)
    (hb : b.head? = some '"')
    (hinj : keyDigitInj key v = false) :
    NoHit (fullD key) v b := by
  cases b with
  | nil => cases hb
  | cons c bs2 =>
    have hc : c = '"' := by simpa using hb
    subst hc
    exact noHit_fullD_field hK hv hinj

theorem noHit_pfx_digits {k0 : Char} {ks b : List Char} {n : Nat}
    (hk : jsDigit k0 = false) :
    NoHit (fun s => pfx (k0 :: ks) s) (natDigits n) b :=
  noHit_pfx_headNe (fun c hc => ne_of_jsDigit ((natDigits_spec n).2.1 c hc) hk)

/-- The front-matter block between the two `---` delimiter lines of a
serialized article. -/
def fmA (a : Article) : List Char :=
  ("title: \"".data) ++ (a.title ++ (("\"\nsummary: \"".data) ++ (escQ a.summary ++
  (("\"\ntags: [".data) ++ (tagsJoin a.metadata.suggestedTags ++
  (("]\nissueNumber: ".data) ++ (natDigits a.metadata.issueNumber ++
  (("\ngeneratedAt: \"".data) ++ (a.generatedAt ++
  (("\"\nwordCount: ".data) ++ (natDigits a.wordCount ++
  (("\ntone: \"".data) ++ (a.metadata.tone ++
  (("\"\ntargetAudience: \"".data) ++ (a.metadata.targetAudience ++
  ("\"".data))))))))))))))))

/-- The body part of a serialized article, after the closing delimiter. -/
def tailA (a : Article) : List Char :=
  ("\n# ".data) ++ (a.title ++ (("\n\n".data) ++ (a.content ++
  ("\n\n---\n\n*この記事はAIによって生成されました。*\n".data))))

theorem serialize_split (a : Article) :
    serializeArticle a
      = ("---\n".data) ++ (fmA a ++ (("\n---\n".data) ++ tailA a)) := by
  simp only [serializeArticle, fmA, tailA, List.append_assoc]
  rfl

/-- Round-trip side conditions on an article: header fields quote- and
line-terminator-free, a non-empty tone, no `issueNumber: `-plus-digit
injection in the fields serialized before the issueNumber line, and no
tag ending in a later key. -/
def GoodArticle (a : Article) : Prop :=
  SafeF a.title = true ∧ SafeF a.summary = true ∧ SafeF a.generatedAt = true ∧
  SafeF a.metadata.tone = true ∧ SafeF a.metadata.targetAudience = true ∧
  (∀ t ∈ a.metadata.suggestedTags, SafeF t = true) ∧
  a.metadata.tone ≠ [] ∧
  keyDigitInj ("issueNumber: ".data) a.title = false ∧
  keyDigitInj ("issueNumber: ".data) a.summary = false ∧
  (∀ t ∈ a.metadata.suggestedTags,
    keyDigitInj ("issueNumber: ".data) t = false) ∧
  (∀ t ∈ a.metadata.suggestedTags,
    endsW ("tone: ".data) t = false ∧ endsW ("targetAudience: ".data) t = false)

theorem noHit_fm_dashes (a : Article) (hg : GoodArticle a) (b : List Char) :
    NoHit (fun s => pfx ("\n---\n".data) s) (fmA a) b := by
  obtain ⟨ht, hs, hga, hto, hta, htags, -, -, -, -, -⟩ := hg
  have hs2 : SafeF (escQ a.summary) = true := by
    rw [escQ_id (fun c hc => safeF_no_quote hs hc)]
    exact hs
  have hfield : ∀ {v : List Char}, SafeF v = true → ∀ {b2 : List Char},
      NoHit (fun s => pfx ("\n---\n".data) s) v b2 := by
    intro v hv b2
    exact noHit_pfx_headNe (fun c hc => safeF_no_nl hv hc)
  have hdig : ∀ {n : Nat} {b2 : List Char},
      NoHit (fun s => pfx ("\n---\n".data) s) (natDigits n) b2 := by
    intro n b2
    exact noHit_pfx_digits (by decide)
  have htj : ∀ {b2 : List Char},
      NoHit (fun s => pfx ("\n---\n".data) s)
        (tagsJoin a.metadata.suggestedTags) b2 := by
    intro b2
    exact noHit_pfx_headNe (tagsJoin_no_nl htags)
  rw [fmA]
  exact noHit_append (noHit_pfx_lit (by decide) _)
    (noHit_append (hfield ht)
    (noHit_append (noHit_pfx_lit (by decide) _)
    (noHit_append (hfield hs2)
    (noHit_append (noHit_pfx_lit (by decide) _)
    (noHit_append htj
    (noHit_append (noHit_pfx_lit (by decide) _)
    (noHit_append hdig
    (noHit_append (noHit_pfx_lit (by decide) _)
    (noHit_append (hfield hga)
    (noHit_append (noHit_pfx_lit (by decide) _)
    (noHit_append hdig
    (noHit_append (noHit_pfx_lit (by decide) _)
    (noHit_append (hfield hto)
    (noHit_append (noHit_pfx_lit (by decide) _)
    (noHit_append (hfield hta)
      (noHit_pfx_lit (by decide) _))))))))))))))))

theorem splitFm_serialize (a : Article) (hg : GoodArticle a) :
    splitFm (serializeArticle a) = some (fmA a, tailA a) := by
  rw [serialize_split, splitFm]
  simp only [pfx_append_self, if_true]
  have hdrop4 : (("---\n".data) ++ (fmA a ++ (("\n---\n".data) ++ tailA a))).drop 4
      = fmA a ++ (("\n---\n".data) ++ tailA a) := by
    rw [show (4 : Nat) = ("---\n".data).length from rfl]
    exact List.drop_left _ _
  rw [hdrop4]
  have hfind : findSub ("\n---\n".data) (fmA a ++ (("\n---\n".data) ++ tailA a))
      = some (fmA a).length :=
    findSub_append (noHit_fm_dashes a hg _) (pfx_append_self _ _)
  rw [hfind]
  have htake : (fmA a ++ (("\n---\n".data) ++ tailA a)).take (fmA a).length
      = fmA a := List.take_left _ _
  have hdrop5 : (fmA a ++ (("\n---\n".data) ++ tailA a)).drop ((fmA a).length + 5)
      = tailA a := by
    rw [← List.append_assoc,
      show (fmA a).length + 5 = (fmA a ++ ("\n---\n".data)).length from by simp]
    exact List.drop_left _ _
  simp only [htake, hdrop5]

theorem jsOr_ne {x y : List Char} (h : x ≠ []) : jsOr x y = x := by
  unfold jsOr
  simp [h]

theorem getLast?_append_some {b : List Char} {c : Char}
    (h : b.getLast? = some c) (x : List Char) :
    (x ++ b).getLast? = some c := by
  rw [List.getLast?_append, h]
  rfl

theorem stripLeadTitle_not {b : List Char}
    (h : pfx ("# ".data) b = false) : stripLeadTitle b = b := by
  unfold stripLeadTitle
  simp [h]

theorem extractQuoted_title_fm (a : Article) (ht : SafeF a.title = true) :
    extractQuoted ("title: \"".data) (fmA a) = some a.title := by
  have hshape : fmA a = (("title: \"".data) ++ (a.title ++ ('"' :: (("\nsummary: \"".data) ++ (escQ a.summary ++ (("\"\ntags: [".data) ++ (tagsJoin a.metadata.suggestedTags ++ (("]\nissueNumber: ".data) ++ (natDigits a.metadata.issueNumber ++ (("\ngeneratedAt: \"".data) ++ (a.generatedAt ++ (("\"\nwordCount: ".data) ++ (natDigits a.wordCount ++ (("\ntone: \"".data) ++ (a.metadata.tone ++ (("\"\ntargetAudience: \"".data) ++ (a.metadata.targetAudience ++ ("\"".data)))))))))))))))))) := by
    simp only [fmA, List.append_assoc]
    rfl
  rw [hshape]
  exact extractQuoted_here (by decide) ht rfl

theorem extractQuoted_summary_fm (a : Article) (hg : GoodArticle a) :
    extractQuoted ("summary: \"".data) (fmA a) = some (escQ a.summary) := by
  obtain ⟨ht, hs, -, -, -, -, -, -, -, -, -⟩ := hg
  have hs2 : SafeF (escQ a.summary) = true := by
    rw [escQ_id (fun c hc => safeF_no_quote hs hc)]
    exact hs
  have hshape : fmA a = ((("title: \"".data) ++ (a.title ++ ("\"\n".data))) ++ ((("summary: ".data) ++ ['"']) ++ (escQ a.summary ++ ('"' :: (("\ntags: [".data) ++ (tagsJoin a.metadata.suggestedTags ++ (("]\nissueNumber: ".data) ++ (natDigits a.metadata.issueNumber ++ (("\ngeneratedAt: \"".data) ++ (a.generatedAt ++ (("\"\nwordCount: ".data) ++ (natDigits a.wordCount ++ (("\ntone: \"".data) ++ (a.metadata.tone ++ (("\"\ntargetAudience: \"".data) ++ (a.metadata.targetAudience ++ ("\"".data))))))))))))))))) := by
    simp only [fmA, List.append_assoc]
    rfl
  have hkey : ("summary: \"".data) = ("summary: ".data) ++ ['"'] := rfl
  rw [hkey, hshape]
  rw [extractQuoted_skip (noHit_append (noHit_fullQ_of_pfx (noHit_pfx_lit (by decide) _)) (noHit_append (noHit_fullQ_field2 (by decide) ht (by rfl) (Or.inr (by rfl))) (noHit_fullQ_of_pfx (noHit_pfx_lit (by decide) _))))]
  exact extractQuoted_here (by decide) hs2 rfl

theorem extractQuoted_tone_fm (a : Article) (hg : GoodArticle a) :
    extractQuoted ("tone: \"".data) (fmA a) = some a.metadata.tone := by
  obtain ⟨ht, hs, hga, hto, -, htags, -, -, -, -, htag2⟩ := hg
  have hs2 : SafeF (escQ a.summary) = true := by
    rw [escQ_id (fun c hc => safeF_no_quote hs hc)]
    exact hs
  have hshape : fmA a = ((("title: \"".data) ++ (a.title ++ (("\"\nsummary: \"".data) ++ (escQ a.summary ++ (("\"\ntags: [".data) ++ (tagsJoin a.metadata.suggestedTags ++ (("]\nissueNumber: ".data) ++ (natDigits a.metadata.issueNumber ++ (("\ngeneratedAt: \"".data) ++ (a.generatedAt ++ (("\"\nwordCount: ".data) ++ (natDigits a.wordCount ++ ("\n".data))))))))))))) ++ ((("tone: ".data) ++ ['"']) ++ (a.metadata.tone ++ ('"' :: (("\ntargetAudience: \"".data) ++ (a.metadata.targetAudience ++ ("\"".data))))))) := by
    simp only [fmA, List.append_assoc]
    rfl
  have hkey : ("tone: \"".data) = ("tone: ".data) ++ ['"'] := rfl
  rw [hkey, hshape]
  rw [extractQuoted_skip (noHit_append (noHit_fullQ_of_pfx (noHit_pfx_lit (by decide) _)) (noHit_append (noHit_fullQ_field2 (by decide) ht (by rfl) (Or.inr (by rfl))) (noHit_append (noHit_fullQ_of_pfx (noHit_pfx_lit (by decide) _)) (noHit_append (noHit_fullQ_field2 (by decide) hs2 (by rfl) (Or.inr (by rfl))) (noHit_append (noHit_fullQ_of_pfx (noHit_pfx_lit (by decide) _)) (noHit_append (noHit_fullQ_tagsJoin (by decide) (by decide) (by decide) (by decide) (fun t htm => ⟨htags t htm, (htag2 t htm).1⟩) _) (noHit_append (noHit_fullQ_of_pfx (noHit_pfx_lit (by decide) _)) (noHit_append (noHit_fullQ_of_pfx (noHit_pfx_digits (by decide))) (noHit_append (noHit_fullQ_of_pfx (noHit_pfx_lit (by decide) _)) (noHit_append (noHit_fullQ_field2 (by decide) hga (by rfl) (Or.inr (by rfl))) (noHit_append (noHit_fullQ_of_pfx (noHit_pfx_lit (by decide) _)) (noHit_append (noHit_fullQ_of_pfx (noHit_pfx_digits (by decide))) (noHit_fullQ_of_pfx (noHit_pfx_lit (by decide) _))))))))))))))]
  exact extractQuoted_here (by decide) hto rfl

theorem extractQuoted_ta_fm (a : Article) (hg : GoodArticle a) :
    extractQuoted ("targetAudience: \"".data) (fmA a)
      = some a.metadata.targetAudience := by
  obtain ⟨ht, hs, hga, hto, hta, htags, -, -, -, -, htag2⟩ := hg
  have hs2 : SafeF (escQ a.summary) = true := by
    rw [escQ_id (fun c hc => safeF_no_quote hs hc)]
    exact hs
  have hshape : fmA a = ((("title: \"".data) ++ (a.title ++ (("\"\nsummary: \"".data) ++ (escQ a.summary ++ (("\"\ntags: [".data) ++ (tagsJoin a.metadata.suggestedTags ++ (("]\nissueNumber: ".data) ++ (natDigits a.metadata.issueNumber ++ (("\ngeneratedAt: \"".data) ++ (a.generatedAt ++ (("\"\nwordCount: ".data) ++ (natDigits a.wordCount ++ (("\ntone: \"".data) ++ (a.metadata.tone ++ ("\"\n".data))))))))))))))) ++ ((("targetAudience: ".data) ++ ['"']) ++ (a.metadata.targetAudience ++ ('"' :: ([] : List Char))))) := by
    simp only [fmA, List.append_assoc]
    rfl
  have hkey : ("targetAudience: \"".data) = ("targetAudience: ".data) ++ ['"'] := rfl
  rw [hkey, hshape]
  rw [extractQuoted_skip (noHit_append (noHit_fullQ_of_pfx (noHit_pfx_lit (by decide) _)) (noHit_append (noHit_fullQ_field2 (by decide) ht (by rfl) (Or.inr (by rfl))) (noHit_append (noHit_fullQ_of_pfx (noHit_pfx_lit (by decide) _)) (noHit_append (noHit_fullQ_field2 (by decide) hs2 (by rfl) (Or.inr (by rfl))) (noHit_append (noHit_fullQ_of_pfx (noHit_pfx_lit (by decide) _)) (noHit_append (noHit_fullQ_tagsJoin (by decide) (by decide) (by decide) (by decide) (fun t htm => ⟨htags t htm, (htag2 t htm).2⟩) _) (noHit_append (noHit_fullQ_of_pfx (noHit_pfx_lit (by decide) _)) (noHit_append (noHit_fullQ_of_pfx (noHit_pfx_digits (by decide))) (noHit_append (noHit_fullQ_of_pfx (noHit_pfx_lit (by decide) _)) (noHit_append (noHit_fullQ_field2 (by decide) hga (by rfl) (Or.inr (by rfl))) (noHit_append (noHit_fullQ_of_pfx (noHit_pfx_lit (by decide) _)) (noHit_append (noHit_fullQ_of_pfx (noHit_pfx_digits (by decide))) (noHit_append (noHit_fullQ_of_pfx (noHit_pfx_lit (by decide) _)) (noHit_append (noHit_fullQ_field2 (by decide) hto (by rfl) (Or.inr (by rfl))) (noHit_fullQ_of_pfx (noHit_pfx_lit (by decide) _))))))))))))))))]
  exact extractQuoted_here (by decide) hta rfl

theorem extractDigits_issue_fm (a : Article) (hg : GoodArticle a) :
    extractDigitsRun ("issueNumber: ".data) (fmA a)
      = some (natDigits a.metadata.issueNumber) := by
  obtain ⟨ht, hs, -, -, -, htags, -, hit, his, hitag, -⟩ := hg
  have hs2 : SafeF (escQ a.summary) = true := by
    rw [escQ_id (fun c hc => safeF_no_quote hs hc)]
    exact hs
  have his2 : keyDigitInj ("issueNumber: ".data) (escQ a.summary) = false := by
    rw [escQ_id (fun c hc => safeF_no_quote hs hc)]
    exact his
  have hshape : fmA a = ((("title: \"".data) ++ (a.title ++ (("\"\nsummary: \"".data) ++ (escQ a.summary ++ (("\"\ntags: [".data) ++ (tagsJoin a.metadata.suggestedTags ++ ("]\n".data))))))) ++ (("issueNumber: ".data) ++ (natDigits a.metadata.issueNumber ++ (("\ngeneratedAt: \"".data) ++ (a.generatedAt ++ (("\"\nwordCount: ".data) ++ (natDigits a.wordCount ++ (("\ntone: \"".data) ++ (a.metadata.tone ++ (("\"\ntargetAudience: \"".data) ++ (a.metadata.targetAudience ++ ("\"".data)))))))))))) := by
    simp only [fmA, List.append_assoc]
    rfl
  rw [hshape]
  rw [extractDigitsRun_skip (noHit_append (noHit_fullD_of_pfx (noHit_pfx_lit (by decide) _)) (noHit_append (noHit_fullD_field2 (by decide) ht (by rfl) hit) (noHit_append (noHit_fullD_of_pfx (noHit_pfx_lit (by decide) _)) (noHit_append (noHit_fullD_field2 (by decide) hs2 (by rfl) his2) (noHit_append (noHit_fullD_of_pfx (noHit_pfx_lit (by decide) _)) (noHit_append (noHit_fullD_tagsJoin (by decide) (by decide) (by decide) (by decide) (fun t htm => ⟨htags t htm, hitag t htm⟩) _) (noHit_fullD_of_pfx (noHit_pfx_lit (by decide) _))))))))]
  exact extractDigitsRun_here (by decide) ((natDigits_spec _).2.1)
    ((natDigits_spec _).1) rfl

theorem loadArticleRegen_serialize (a : Article) (now : List Char)
    (hg : GoodArticle a) :
    loadArticleRegen (serializeArticle a) now = some
      { title := a.title, content := jsTrim (tailA a), summary := a.summary,
        wordCount := countCharacters (tailA a), generatedAt := now,
        metadata := { issueNumber := a.metadata.issueNumber,
                      tone := a.metadata.tone,
                      targetAudience := a.metadata.targetAudience,
                      suggestedTags := [] } } := by
  have hg2 := hg
  obtain ⟨ht, hs, -, -, -, -, hne, -, -, -, -⟩ := hg2
  have hesc : escQ a.summary = a.summary :=
    escQ_id (fun c hc => safeF_no_quote hs hc)
  have hbody1 : stripLeadTitle (tailA a) = tailA a :=
    stripLeadTitle_not (by rfl)
  have hlast : (tailA a).getLast? = some '\n' := by
    rw [tailA]
    exact getLast?_append_some (getLast?_append_some
      (getLast?_append_some (getLast?_append_some (by rfl) _) _) _) _
  have hbody2 : stripFoot (tailA a) = tailA a := stripFoot_id_of_last_nl hlast
  rw [loadArticleRegen, splitFm_serialize a hg]
  simp only [extractQuoted_title_fm a ht, extractQuoted_summary_fm a hg,
    extractDigits_issue_fm a hg, extractQuoted_tone_fm a hg,
    extractQuoted_ta_fm a hg, Option.getD_some, hesc, hbody1, hbody2,
    jsOr_ne hne, (natDigits_spec a.metadata.issueNumber).2.2]

/-- C1 (amended): for every GeneratedArticle with non-empty title and
content whose title, summary, generatedAt string, tone, targetAudience and
tags contain no double quote and no line terminator, whose tone is
non-empty, whose title, summary and tags contain no `issueNumber: `
followed by a digit, and none of whose tags ends in `tone: ` or
`targetAudience: `, deserializing (loadArticle of the regeneration
workflow) the document produced by saveArticleAsMarkdown reproduces the
title, tone, targetAudience, issueNumber and summary, and yields a
wordCount equal to the non-whitespace character count of the reproduced
content. -/
theorem C1_serialize_roundtrip (a : Article) (now : List Char)
    (hg : GoodArticle a) (hti : a.title ≠ []) (hco : a.content ≠ []) :
    ∃ loaded, loadArticleRegen (serializeArticle a) now = some loaded ∧
      loaded.title = a.title ∧
      loaded.metadata.tone = a.metadata.tone ∧
      loaded.metadata.targetAudience = a.metadata.targetAudience ∧
      loaded.metadata.issueNumber = a.metadata.issueNumber ∧
      loaded.summary = a.summary ∧
      loaded.wordCount = countCharacters loaded.content := by
  refine ⟨_, loadArticleRegen_serialize a now hg, rfl, rfl, rfl, rfl, rfl, ?_⟩
  exact (countCharacters_trim (tailA a)).symm

/-- A concrete well-formed article exercising the round-trip theorem. -/
def wArticle : Article :=
  { title := ("AIの未来".data), content := ("Hello body".data),
    summary := ("A short note".data), wordCount := 9,
    generatedAt := ("2024-01-01T00:00:00.000Z".data),
    metadata := { issueNumber := 12, tone := ("casual".data),
                  targetAudience := ("devs".data),
                  suggestedTags := [("ai".data), ("note".data)] } }

theorem C1_serialize_roundtrip_witness :
    GoodArticle wArticle ∧
    (∃ loaded, loadArticleRegen (serializeArticle wArticle) [] = some loaded ∧
      loaded.title = wArticle.title ∧
      loaded.metadata.tone = wArticle.metadata.tone ∧
      loaded.metadata.targetAudience = wArticle.metadata.targetAudience ∧
      loaded.metadata.issueNumber = wArticle.metadata.issueNumber ∧
      loaded.summary = wArticle.summary ∧
      loaded.wordCount = countCharacters loaded.content) :=
  ⟨by unfold GoodArticle; decide,
   C1_serialize_roundtrip wArticle [] (by unfold GoodArticle; decide)
     (by decide) (by decide)⟩

/-- An article whose summary contains a double quote: serialization
escapes it, deserialization does not unescape. -/
def cArticle : Article :=
  { title := ("T".data), content := ("Body".data),
    summary := ("a\"b".data), wordCount := 4,
    generatedAt := ("2024-01-01T00:00:00.000Z".data),
    metadata := { issueNumber := 1, tone := ("casual".data),
                  targetAudience := [], suggestedTags := [] } }

set_option maxRecDepth 40000 in
/-- C1 as stated is false: for the article `cArticle` (non-empty title and
content) the summary is not reproduced by the round trip. -/
theorem C1_counterexample :
    cArticle.title ≠ [] ∧ cArticle.content ≠ [] ∧
    (loadArticleRegen (serializeArticle cArticle) []).map Article.summary
      ≠ some cArticle.summary := by
  decide

/-- C2 as stated is false for the regeneration deserialization path: a
document without the header delimiters makes `loadArticle` of
regenerate-article.ts throw (`Invalid article format`), modelled as
`none`. -/
theorem C2_counterexample :
    splitFm ("hello".data) = none ∧
    loadArticleRegen ("hello".data) [] = none := by
  decide

/-- C2 (amended): for every input document lacking the expected header
delimiters, the note-export deserialization path does not fail: it falls
back to a degraded parse with the title from the first line (a leading
hash and whitespace stripped) and defaulted metadata, while the
regeneration deserialization path raises an error instead. -/
theorem C2_malformed_fallback (doc now : List Char)
    (h : splitFm doc = none) :
    loadArticleNote doc now =
      { title := stripHash1Star ((splitOnCh '\n' doc).headD []),
        content := doc, summary := [], wordCount := countCharacters doc,
        generatedAt := now,
        metadata := { issueNumber := 0, tone := ("casual".data),
                      targetAudience := [], suggestedTags := [] } } ∧
    loadArticleRegen doc now = none := by
  constructor
  · unfold loadArticleNote
    rw [h]
  · unfold loadArticleRegen
    rw [h]

theorem C2_malformed_fallback_witness :
    splitFm ("hello world".data) = none ∧
    (loadArticleNote ("hello world".data) [] =
      { title := stripHash1Star ((splitOnCh '\n' ("hello world".data)).headD []),
        content := ("hello world".data), summary := [],
        wordCount := countCharacters ("hello world".data),
        generatedAt := [],
        metadata := { issueNumber := 0, tone := ("casual".data),
                      targetAudience := [], suggestedTags := [] } } ∧
     loadArticleRegen ("hello world".data) [] = none) :=
  ⟨by decide, C2_malformed_fallback ("hello world".data) [] (by decide)⟩

/-- C3: every GeneratedArticle built by a core operation — generation,
feedback regeneration, the regeneration loader and the note-export
loader — has wordCount equal to the non-whitespace character count of
its content. -/
theorem C3_wordCount_invariant :
    (∀ rt ra text st tags now,
      (generateArticleResult rt ra text st tags now).wordCount
        = countCharacters (generateArticleResult rt ra text st tags now).content) ∧
    (∀ req text st now,
      (regenerateWithFeedbackResult req text st now).wordCount
        = countCharacters (regenerateWithFeedbackResult req text st now).content) ∧
    (∀ doc now art, loadArticleRegen doc now = some art →
      art.wordCount = countCharacters art.content) ∧
    (∀ doc now, (loadArticleNote doc now).wordCount
      = countCharacters (loadArticleNote doc now).content) := by
  refine ⟨?_, ?_, ?_, ?_⟩
  · intro rt ra text st tags now
    simp only [generateArticleResult]
  · intro req text st now
    simp only [regenerateWithFeedbackResult]
  · intro doc now art h
    rw [loadArticleRegen] at h
    cases hsp : splitFm doc with
    | none =>
      rw [hsp] at h
      cases h
    | some p =>
      obtain ⟨fm, body⟩ := p
      rw [hsp] at h
      simp only [Option.some.injEq] at h
      subst h
      exact (countCharacters_trim _).symm
  · intro doc now
    rw [loadArticleNote]
    cases hsp : splitFm doc with
    | none => rfl
    | some p =>
      obtain ⟨fm, body⟩ := p
      rfl

/-- The article loaded from a small concrete well-formed document. -/
def wLoaded : Article :=
  { title := ("T".data), content := ("body".data), summary := [],
    wordCount := 4, generatedAt := [],
    metadata := { issueNumber := 0, tone := ("casual".data),
                  targetAudience := [], suggestedTags := [] } }

theorem C3_wordCount_invariant_witness :
    loadArticleRegen ("---\ntitle: \"T\"\n---\nbody".data) [] = some wLoaded ∧
    wLoaded.wordCount = countCharacters wLoaded.content :=
  ⟨by decide, C3_wordCount_invariant.2.2.1 ("---\ntitle: \"T\"\n---\nbody".data)
    [] wLoaded (by decide)⟩

theorem firstHeadingIdx_pred :
    ∀ {ls : List (List Char)} {i : Nat}, firstHeadingIdx ls = some i →
      pfx ("# ".data) (jsTrim (ls.getD i [])) = true := by
  intro ls
  induction ls with
  | nil => intro i h; cases h
  | cons l rest ih =>
    intro i h
    rw [firstHeadingIdx] at h
    cases hp : pfx ("# ".data) (jsTrim l) with
    | true =>
      rw [hp] at h
      simp only [if_true] at h
      simp only [Option.some.injEq] at h
      subst h
      exact hp
    | false =>
      rw [hp] at h
      simp only [Bool.false_eq_true, if_false] at h
      cases hrest : firstHeadingIdx rest with
      | none => rw [hrest] at h; cases h
      | some j =>
        rw [hrest] at h
        simp at h
        subst h
        exact ih hrest

theorem stripHashWsPlus_ne_nil {l : List Char}
    (h : pfx ("# ".data) (jsTrim l) = true) :
    stripHashWsPlus (jsTrim l) ≠ [] := by
  obtain ⟨r, hr⟩ := (pfx_iff _ _).1 h
  intro hnil
  rw [hr] at hnil
  have hdw : (' ' :: r).dropWhile jsWs = [] := by
    simpa [stripHashWsPlus, show jsWs ' ' = true from rfl] using hnil
  have hall : ∀ c ∈ ' ' :: r, jsWs c = true := by
    rw [← List.dropWhile_eq_nil_iff]
    exact hdw
  have hrev : (jsTrim l).reverse
      = List.dropWhile jsWs ((l.dropWhile jsWs).reverse) := by
    simp [jsTrim]
  cases hrr : r.reverse with
  | nil =>
    have hre : r = [] := by simpa using congrArg List.reverse hrr
    have he : List.dropWhile jsWs ((l.dropWhile jsWs).reverse)
        = [' ', '#'] := by
      rw [← hrev, hr, hre]
      rfl
    exact absurd (dropWhile_head_not _ he) (by decide)
  | cons c t2 =>
    have hc_mem : c ∈ r := by
      have : c ∈ r.reverse := by rw [hrr]; exact List.mem_cons_self c t2
      exact List.mem_reverse.1 this
    have hcws : jsWs c = true := hall c (List.mem_cons_of_mem _ hc_mem)
    have hrev2 : List.dropWhile jsWs ((l.dropWhile jsWs).reverse)
        = c :: (t2 ++ [' ', '#']) := by
      rw [← hrev, hr]
      calc (('#' :: (' ' :: r)).reverse)
          = r.reverse ++ [' ', '#'] := by simp
        _ = c :: (t2 ++ [' ', '#']) := by rw [hrr]; simp
    have := dropWhile_head_not _ hrev2
    rw [hcws] at this
    cases this

/-- C4: the title/body splitter agrees, on every input, with the rule as
specified (first `# ` line after trimming gives the title, lines after it
the body; otherwise first line with hashes and whitespace stripped), and
the three documented examples hold. -/
theorem C4_title_body_split :
    (∀ content, parseArticleContent content = titleBodySplitClaim content) ∧
    parseArticleContent ("# Hello\n\nWorld".data)
      = (("Hello".data), ("World".data)) ∧
    parseArticleContent ("No heading\nmore text".data)
      = (("No heading".data), ("more text".data)) ∧
    parseArticleContent [] = ([], []) := by
  refine ⟨?_, by decide, by decide, by decide⟩
  intro content
  simp only [parseArticleContent, titleBodySplitClaim]
  cases hit : firstHeadingIdx (splitOnCh '\n' (jsTrim content)) with
  | none =>
    have hne := splitOnCh_ne_nil '\n' (jsTrim content)
    have hlen : 0 < (splitOnCh '\n' (jsTrim content)).length :=
      List.length_pos.2 hne
    simp [hlen]
  | some i =>
    have hpred := firstHeadingIdx_pred hit
    have hne := stripHashWsPlus_ne_nil hpred
    simp only [List.getD, List.get?_eq_getElem?] at hne
    simp [hne]

theorem jsOr_nil (y : List Char) : jsOr [] y = y := by
  simp [jsOr]

/-- C5 as stated is false: for an issue titled `article: AI` with no
theme section, the code does not strip the `article:` prefix (only the
Japanese `記事作成:` label is stripped). -/
theorem C5_counterexample :
    (parseIssueToArticleRequest 1 ("article: AI".data) (some [])).theme
      ≠ ("AI".data) := by
  decide

/-- C5 (amended): the theme is the stored (trimmed) テーマ section when
that is non-empty, else the stored theme section when non-empty, else
the issue title with a leading `記事作成:` or `記事作成：` label and
following whitespace removed. -/
theorem C5_theme (number : Nat) (title : List Char)
    (body : Option (List Char)) :
    (secVal (parseIssueSections (body.getD [])) ("テーマ".data) ≠ [] →
      (parseIssueToArticleRequest number title body).theme
        = secVal (parseIssueSections (body.getD [])) ("テーマ".data)) ∧
    (secVal (parseIssueSections (body.getD [])) ("テーマ".data) = [] →
     secVal (parseIssueSections (body.getD [])) ("theme".data) ≠ [] →
      (parseIssueToArticleRequest number title body).theme
        = secVal (parseIssueSections (body.getD [])) ("theme".data)) ∧
    (secVal (parseIssueSections (body.getD [])) ("テーマ".data) = [] →
     secVal (parseIssueSections (body.getD [])) ("theme".data) = [] →
      (parseIssueToArticleRequest number title body).theme
        = stripKijiLabel title) := by
  refine ⟨?_, ?_, ?_⟩
  · intro h1
    simp only [parseIssueToArticleRequest]
    rw [jsOr_ne h1]
  · intro h1 h2
    simp only [parseIssueToArticleRequest]
    rw [h1, jsOr_nil, jsOr_ne h2]
  · intro h1 h2
    simp only [parseIssueToArticleRequest]
    rw [h1, jsOr_nil, h2, jsOr_nil]

theorem C5_theme_witness :
    secVal (parseIssueSections ((some ("## テーマ\nAI活用\n".data)).getD []))
        ("テーマ".data) ≠ [] ∧
    (parseIssueToArticleRequest 1 ("x".data)
        (some ("## テーマ\nAI活用\n".data))).theme
      = secVal (parseIssueSections ((some ("## テーマ\nAI活用\n".data)).getD []))
          ("テーマ".data) :=
  ⟨by decide, (C5_theme 1 ("x".data) (some ("## テーマ\nAI活用\n".data))).1
    (by decide)⟩

/-- C6: tone inference is substring containment with business checked
before technical, defaulting to casual. -/
theorem C6_tone (t : List Char) :
    ((jsIncludes t ("ビジネス".data) || jsIncludes t ("business".data)) = true →
      toneFrom t = ("business".data)) ∧
    ((jsIncludes t ("ビジネス".data) || jsIncludes t ("business".data)) = false →
     (jsIncludes t ("技術".data) || jsIncludes t ("technical".data)) = true →
      toneFrom t = ("technical".data)) ∧
    ((jsIncludes t ("ビジネス".data) || jsIncludes t ("business".data)) = false →
     (jsIncludes t ("技術".data) || jsIncludes t ("technical".data)) = false →
      toneFrom t = ("casual".data)) := by
  refine ⟨?_, ?_, ?_⟩
  · intro h
    simp [toneFrom, h]
  · intro h1 h2
    simp [toneFrom, h1, h2]
  · intro h1 h2
    simp [toneFrom, h1, h2]

theorem C6_tone_witness :
    (jsIncludes ("ビジネス寄り".data) ("ビジネス".data)
      || jsIncludes ("ビジネス寄り".data) ("business".data)) = true ∧
    toneFrom ("ビジネス寄り".data) = ("business".data) :=
  ⟨by decide, (C6_tone ("ビジネス寄り".data)).1 (by decide)⟩

theorem all_takeWhile2 (p : Char → Bool) (l : List Char) :
    (l.takeWhile p).all p = true := by
  induction l with
  | nil => rfl
  | cons c t ih =>
    rw [List.takeWhile_cons]
    by_cases hp : p c = true
    · simp [hp, ih]
    · simp [hp]

theorem urlTokenAt_shape {s m : List Char} (h : urlTokenAt s = some m) :
    ∃ p run, (p = ("http://".data) ∨ p = ("https://".data)) ∧ run ≠ [] ∧
      run.all urlChar = true ∧ m = p ++ run := by
  unfold urlTokenAt at h
  by_cases h1 : pfx ("https://".data) s = true
  · rw [if_pos h1] at h
    cases hrun : (s.drop 8).takeWhile urlChar with
    | nil => rw [hrun] at h; cases h
    | cons c t =>
      rw [hrun, if_neg (by simp : ¬(c :: t = ([] : List Char)))] at h
      refine ⟨("https://".data), c :: t, Or.inr rfl, by simp, ?_,
        by simpa using h.symm⟩
      rw [← hrun]
      exact all_takeWhile2 _ _
  · rw [if_neg h1] at h
    by_cases h2 : pfx ("http://".data) s = true
    · rw [if_pos h2] at h
      cases hrun : (s.drop 7).takeWhile urlChar with
      | nil => rw [hrun] at h; cases h
      | cons c t =>
        rw [hrun, if_neg (by simp : ¬(c :: t = ([] : List Char)))] at h
        refine ⟨("http://".data), c :: t, Or.inl rfl, by simp, ?_,
          by simpa using h.symm⟩
        rw [← hrun]
        exact all_takeWhile2 _ _
    · rw [if_neg h2] at h
      cases h

theorem scanUrlsF_mem_shape :
    ∀ (fuel : Nat) (s u : List Char), u ∈ scanUrlsF fuel s →
      ∃ p run, (p = ("http://".data) ∨ p = ("https://".data)) ∧ run ≠ [] ∧
        run.all urlChar = true ∧ u = p ++ run := by
  intro fuel
  induction fuel with
  | zero =>
    intro s u h
    simp [scanUrlsF] at h
  | succ f ih =>
    intro s u h
    cases s with
    | nil => simp [scanUrlsF] at h
    | cons c t =>
      rw [scanUrlsF] at h
      cases htok : urlTokenAt (c :: t) with
      | some m =>
        rw [htok] at h
        rcases List.mem_cons.1 h with rfl | h2
        · exact urlTokenAt_shape htok
        · exact ih _ _ h2
      | none =>
        rw [htok] at h
        exact ih _ _ h

set_option maxRecDepth 40000 in
/-- C7: every extracted reference is `http://` or `https://` followed by
a non-empty run of characters outside the excluded class (whitespace,
`)`, `>`, `]`); the documented example, and a duplicated URL, come back
in order with duplicates retained. -/
theorem C7_extract_references :
    (∀ body u, u ∈ extractReferences body →
      ∃ p run, (p = ("http://".data) ∨ p = ("https://".data)) ∧ run ≠ [] ∧
        run.all urlChar = true ∧ u = p ++ run) ∧
    extractReferences ("see http://a.com/x and (https://b.com/y)".data)
      = [("http://a.com/x".data), ("https://b.com/y".data)] ∧
    extractReferences ("ref http://a.com and http://a.com again".data)
      = [("http://a.com".data), ("http://a.com".data)] := by
  refine ⟨?_, by decide, by decide⟩
  intro body u h
  exact scanUrlsF_mem_shape _ _ _ h

set_option maxRecDepth 40000 in
theorem C7_extract_references_witness :
    ("http://a.com/x".data)
      ∈ extractReferences ("see http://a.com/x and (https://b.com/y)".data) ∧
    (∃ p run, (p = ("http://".data) ∨ p = ("https://".data)) ∧ run ≠ [] ∧
      run.all urlChar = true ∧ ("http://a.com/x".data) = p ++ run) :=
  ⟨by decide, C7_extract_references.1
    ("see http://a.com/x and (https://b.com/y)".data)
    ("http://a.com/x".data) (by decide)⟩

/-- C8: feedback command detection recognizes exactly the six tokens by
substring containment, the first in source order winning; with none of
them present the result is undefined. -/
theorem C8_parse_command (body : List Char) :
    (jsIncludes body ("/regenerate".data) = true →
      parseCommand body = some ("/regenerate".data)) ∧
    (jsIncludes body ("/regenerate".data) = false →
     jsIncludes body ("/shorter".data) = true →
      parseCommand body = some ("/shorter".data)) ∧
    (jsIncludes body ("/regenerate".data) = false →
     jsIncludes body ("/shorter".data) = false →
     jsIncludes body ("/longer".data) = true →
      parseCommand body = some ("/longer".data)) ∧
    (jsIncludes body ("/regenerate".data) = false →
     jsIncludes body ("/shorter".data) = false →
     jsIncludes body ("/longer".data) = false →
     jsIncludes body ("/casual".data) = true →
      parseCommand body = some ("/casual".data)) ∧
    (jsIncludes body ("/regenerate".data) = false →
     jsIncludes body ("/shorter".data) = false →
     jsIncludes body ("/longer".data) = false →
     jsIncludes body ("/casual".data) = false →
     jsIncludes body ("/formal".data) = true →
      parseCommand body = some ("/formal".data)) ∧
    (jsIncludes body ("/regenerate".data) = false →
     jsIncludes body ("/shorter".data) = false →
     jsIncludes body ("/longer".data) = false →
     jsIncludes body ("/casual".data) = false →
     jsIncludes body ("/formal".data) = false →
     jsIncludes body ("/publish".data) = true →
      parseCommand body = some ("/publish".data)) ∧
    (jsIncludes body ("/regenerate".data) = false →
     jsIncludes body ("/shorter".data) = false →
     jsIncludes body ("/longer".data) = false →
     jsIncludes body ("/casual".data) = false →
     jsIncludes body ("/formal".data) = false →
     jsIncludes body ("/publish".data) = false →
      parseCommand body = none) := by
  refine ⟨?_, ?_, ?_, ?_, ?_, ?_, ?_⟩ <;>
    intros <;> simp [parseCommand, commandList, List.find?, *]

/-- A comment containing both `/shorter` and `/casual` resolves to
`/shorter`, as the claim illustrates. -/
theorem C8_parse_command_witness :
    jsIncludes ("please /casual or /shorter".data) ("/regenerate".data)
      = false ∧
    jsIncludes ("please /casual or /shorter".data) ("/shorter".data) = true ∧
    parseCommand ("please /casual or /shorter".data)
      = some ("/shorter".data) :=
  ⟨by decide, by decide,
   (C8_parse_command ("please /casual or /shorter".data)).2.1 (by decide)
     (by decide)⟩

theorem toneFrom_mem (t : List Char) :
    toneFrom t = ("casual".data) ∨ toneFrom t = ("business".data) ∨
    toneFrom t = ("technical".data) := by
  unfold toneFrom
  split
  · right; left; rfl
  · split
    · right; right; rfl
    · left; rfl

/-- C9: the Request Extractor is total with safe defaults: a null or
empty body yields the fully-defaulted request (theme from the stripped
title, empty audience and instructions, casual tone, length 2000, no
references); the tone is always one of the three values; and a missing
length section defaults targetLength to 2000. -/
theorem C9_request_defaults :
    (∀ number title, parseIssueToArticleRequest number title none =
      { theme := stripKijiLabel title, targetAudience := [],
        tone := ("casual".data), targetLength := 2000,
        additionalInstructions := [], references := [] }) ∧
    (∀ number title, parseIssueToArticleRequest number title (some []) =
      { theme := stripKijiLabel title, targetAudience := [],
        tone := ("casual".data), targetLength := 2000,
        additionalInstructions := [], references := [] }) ∧
    (∀ number title body,
      (parseIssueToArticleRequest number title body).tone = ("casual".data) ∨
      (parseIssueToArticleRequest number title body).tone = ("business".data) ∨
      (parseIssueToArticleRequest number title body).tone
        = ("technical".data)) ∧
    (∀ number title body,
      secVal (parseIssueSections (body.getD [])) ("文字数".data) = [] →
      secVal (parseIssueSections (body.getD [])) ("length".data) = [] →
      (parseIssueToArticleRequest number title body).targetLength = 2000) := by
  refine ⟨?_, ?_, ?_, ?_⟩
  · intro number title
    rfl
  · intro number title
    rfl
  · intro number title body
    simp only [parseIssueToArticleRequest]
    exact toneFrom_mem _
  · intro number title body h1 h2
    simp only [parseIssueToArticleRequest]
    rw [h1, jsOr_nil, h2]
    rfl

theorem C9_request_defaults_witness :
    secVal (parseIssueSections ((some ("hello".data)).getD []))
        ("文字数".data) = [] ∧
    secVal (parseIssueSections ((some ("hello".data)).getD []))
        ("length".data) = [] ∧
    (parseIssueToArticleRequest 3 ("t".data)
        (some ("hello".data))).targetLength = 2000 :=
  ⟨by decide, by decide,
   C9_request_defaults.2.2.2 3 ("t".data) (some ("hello".data))
     (by decide) (by decide)⟩

/-- C10: feedback regeneration copies the original article's metadata
object unchanged (issueNumber, tone, targetAudience, suggestedTags),
whatever the feedback text and command; title, content, summary,
wordCount and generatedAt come from the new generation. -/
theorem C10_regenerate_frame (req : FeedbackRequest)
    (responseText summaryText now : List Char) :
    (regenerateWithFeedbackResult req responseText summaryText now).metadata
        = req.originalArticle.metadata ∧
    (regenerateWithFeedbackResult req responseText summaryText now).title
        = (parseArticleContent responseText).1 ∧
    (regenerateWithFeedbackResult req responseText summaryText now).content
        = (parseArticleContent responseText).2 ∧
    (regenerateWithFeedbackResult req responseText summaryText now).summary
        = summaryText ∧
    (regenerateWithFeedbackResult req responseText summaryText now).wordCount
        = countCharacters (parseArticleContent responseText).2 ∧
    (regenerateWithFeedbackResult req responseText summaryText now).generatedAt
        = now := by
  simp [regenerateWithFeedbackResult]
